import Mathlib

/-!
# Format negotiation (libavfilter/formats.c)

A shallow embedding of the reference-counted format lists of
`libavfilter/formats.c` and of the operations on them, followed by the
properties of the negotiation core that are checked against the code.

## Memory model

* A format list lives at an address (a natural number).  `Mem.sets p` is the
  object stored at `p`, or `none` when no object is allocated there.
* An owner slot (an `AVFilterFormats **` of the C code) is an address of its
  own; `Mem.slots s` is the pointer stored in the slot, `none` being `NULL`.
  Slots are storage of the caller: they never overlap a format list.
* The two arrays of a format list are kept as the lists of their live
  entries: `formats` is `formats[0 .. format_count)` and `refs` is
  `refs[0 .. refcount)`, so that the two counters are the lengths.
* Every operation returns an `Option`: `none` means that the C code leaves
  defined behaviour on that input (a freed or null pointer is dereferenced,
  an array is read or written past its end).
* A detach from a list whose reference count is zero wraps the unsigned
  count to `2^32 - 1` and frees nothing.  The count of such a list no longer
  is the length of its registry, which has no entry: the list leaves `sets`
  and is kept, with its candidates, in `Mem.wrapped`.  Whatever reads the
  registry of such a list reads past the end of an empty array.
* Allocations are assumed to succeed; the address returned by the allocation
  of a new list is an argument of the operation that allocates.  Only
  `avfilter_add_format`, which tests its allocations, takes their outcome as
  an argument.
* The counters are natural numbers: the arrays are shorter than `2^32`
  entries, so that no counter wraps upwards.
* The constructors and `avfilter_add_format` work on one list only and are
  given as functions on the list itself; the scalar parsers are functions of
  the text, with the library functions they call either modelled (`strtol`)
  or passed as arguments.
-/

namespace Formats

/-- The struct `AVFilterFormats`, with each array kept as the list of its
live entries. -/
structure AVFilterFormats where
  /-- The entries `formats[0 .. format_count)`. -/
  formats : List Int
  /-- The entries `refs[0 .. refcount)`: addresses of the owner slots. -/
  refs : List Nat
deriving DecidableEq, Repr

/-- The field `format_count`. -/
def AVFilterFormats.format_count (f : AVFilterFormats) : Nat := f.formats.length

/-- The field `refcount`. -/
def AVFilterFormats.refcount (f : AVFilterFormats) : Nat := f.refs.length

/-- The memory the operations work on. -/
structure Mem where
  /-- The format list allocated at each address, if any. -/
  sets : Nat → Option AVFilterFormats
  /-- The content of each owner slot: `none` is `NULL`. -/
  slots : Nat → Option Nat
  /-- The candidates of each allocated list whose reference count has wrapped
  below zero to `2^32 - 1`; such a list is not in `sets`. -/
  wrapped : Nat → Option (List Int)

/-- A store `f[k] = v`. -/
def upd {α : Type} (f : Nat → α) (k : Nat) (v : α) : Nat → α :=
  fun x => if x = k then v else f x

/-! ## merge_ref and avfilter_merge_formats -/

/-- The loop of `merge_ref`: for each entry `r` of `a->refs`, in order,
`ret->refs[ret->refcount] = r; *r = ret; ret->refcount++`.  The state is the
pair of `ret->refs` and of the slots. -/
def merge_ref_loop (ret : Nat) :
    List Nat → List Nat × (Nat → Option Nat) → List Nat × (Nat → Option Nat)
  | [], st => st
  | r :: rs, st => merge_ref_loop ret rs (st.1 ++ [r], upd st.2 r (some ret))

/-- The function `merge_ref(ret, a)`: add all refs from `a` to `ret` and
destroy `a`.  With `ret == a` the loop of the C code does not end and writes
past the array, hence `none`. -/
def merge_ref (m : Mem) (ret a : Nat) : Option Mem :=
  if ret = a then none else
  match m.sets ret, m.sets a with
  | some R, some A =>
    let st := merge_ref_loop ret A.refs (R.refs, m.slots)
    some { m with
           sets := upd (upd m.sets ret (some { R with refs := st.1 })) a none,
           slots := st.2 }
  | _, _ => none

/-- The inner loop of `avfilter_merge_formats` for one `x = a->formats[i]`:
`for (j ...) if (x == b->formats[j]) ret->formats[k++] = x`.  The list `buf`
holds the `k` entries written so far into an array of `cap` entries; a write
at `k ≥ cap` is out of bounds. -/
def merge_inner (cap : Nat) (x : Int) : List Int → List Int → Option (List Int)
  | [], buf => some buf
  | y :: ys, buf =>
    if x = y then
      if buf.length < cap then merge_inner cap x ys (buf ++ [x]) else none
    else merge_inner cap x ys buf

/-- The outer loop of `avfilter_merge_formats` over `a->formats`. -/
def merge_outer (cap : Nat) (b : List Int) : List Int → List Int → Option (List Int)
  | [], buf => some buf
  | x :: xs, buf =>
    match merge_inner cap x b buf with
    | none => none
    | some buf1 => merge_outer cap b xs buf1

/-- The candidates of the list allocated at `p`, whether its reference count
has wrapped or not. -/
def formats_at (m : Mem) (p : Nat) : Option (List Int) :=
  match m.sets p with
  | some F => some F.formats
  | none => m.wrapped p

/-- The function `avfilter_merge_formats(a, b)`; `ret` is the address that
`av_mallocz` returns for the result.  The value is the returned pointer
(`none` is `NULL`) and the memory after the call.  When the reference count
of `a` or of `b` has wrapped, the candidates are intersected as usual and
`NULL` is returned for an empty intersection; otherwise `merge_ref` reads the
registry of that list past its end. -/
def avfilter_merge_formats (m : Mem) (ret a b : Nat) : Option (Option Nat × Mem) :=
  if a = b then some (some a, m) else
  match m.sets a, m.sets b with
  | some A, some B =>
    match merge_outer (min A.format_count B.format_count) B.formats A.formats [] with
    | none => none
    | some fmts =>
      if fmts.length = 0 then some (none, m)
      else
        let m1 : Mem := { m with sets := upd m.sets ret (some { formats := fmts, refs := [] }) }
        match merge_ref m1 ret a with
        | none => none
        | some m2 =>
          match merge_ref m2 ret b with
          | none => none
          | some m3 => some (some ret, m3)
  | _, _ =>
    match formats_at m a, formats_at m b with
    | some fa, some fb =>
      match merge_outer (min fa.length fb.length) fb fa [] with
      | none => none
      | some fmts => if fmts.length = 0 then some (none, m) else none
    | _, _ => none

/-! ## avfilter_make_format_list -/

/-- The counting loop of `MAKE_FORMAT_LIST`:
`for (count = 0; fmts[count] != -1; count++);` over the entries of the array
from index `count` on.  An array without the terminator `-1` is read past its
end, hence `none`. -/
def make_format_list_count : List Int → Nat → Option Nat
  | [], _ => none
  | x :: xs, count => if x = -1 then some count else make_format_list_count xs (count + 1)

/-- The copy loop of `avfilter_make_format_list`:
`while (count--) formats->formats[count] = fmts[count];`. -/
def make_format_list_copy (fmts : List Int) : Nat → List Int → List Int
  | 0, buf => buf
  | count + 1, buf => make_format_list_copy fmts count (buf.set count (fmts.getD count 0))

/-- The function `avfilter_make_format_list(fmts)`: `fmts` is the array the
argument points to, `none` for a null argument.  The result is the new list
(`av_mallocz` zeroes `refcount` and `refs`); the entries of the new array are
all written by the copy loop, the zeros they start from are never read. -/
def avfilter_make_format_list (fmts : Option (List Int)) : Option AVFilterFormats :=
  let counted : Option Nat :=
    match fmts with
    | none => some 0
    | some l => make_format_list_count l 0
  match counted with
  | none => none
  | some count =>
    some { formats := make_format_list_copy (fmts.getD []) count (List.replicate count 0),
           refs := [] }

/-! ## The reference manager -/

/-- The function `avfilter_formats_ref(f, ref)`:
`*ref = f; f->refs = av_realloc(f->refs, ++f->refcount); f->refs[f->refcount-1] = ref`. -/
def avfilter_formats_ref (m : Mem) (f ref : Nat) : Option Mem :=
  match m.sets f with
  | none => none
  | some F =>
    some { m with
           sets := upd m.sets f (some { F with refs := F.refs ++ [ref] }),
           slots := upd m.slots ref (some f) }

/-- The loop of `find_ref_index` over the entries of `refs` from index `i`
on: the first index whose entry is `ref`, or `-1`. -/
def find_ref_index_loop (ref : Nat) : List Nat → Nat → Int
  | [], _ => -1
  | r :: rs, i => if r = ref then (i : Int) else find_ref_index_loop ref rs (i + 1)

/-- The function `find_ref_index(ref)`; it dereferences `*ref`. -/
def find_ref_index (m : Mem) (ref : Nat) : Option Int :=
  match m.slots ref with
  | none => none
  | some p =>
    match m.sets p with
    | none => none
    | some F => some (find_ref_index_loop ref F.refs 0)

/-- The call `memmove(refs + idx, refs + idx + 1, refcount - idx - 1)` on an
array of `refcount` entries: the entries after `idx` move down by one and
the last entry keeps its old value. -/
def memmove_refs (refs : List Nat) (idx : Nat) : List Nat :=
  refs.take idx ++ refs.drop (idx + 1) ++ refs.drop (refs.length - 1)

/-- The function `avfilter_formats_unref(ref)`.  A reference count of zero
wraps to `2^32 - 1` at `--refcount`: the test `!--refcount` fails, nothing is
freed, the slot is set to `NULL`, and the list moves to `wrapped`. -/
def avfilter_formats_unref (m : Mem) (ref : Nat) : Option Mem :=
  match m.slots ref with
  | none => some m
  | some p =>
    match find_ref_index m ref, m.sets p with
    | some idx, some F =>
      let moved := if 0 ≤ idx then memmove_refs F.refs idx.toNat else F.refs
      if F.refcount = 0 then
        some { m with
               sets := upd m.sets p none,
               slots := upd m.slots ref none,
               wrapped := upd m.wrapped p (some F.formats) }
      else if F.refcount - 1 = 0 then
        some { m with sets := upd m.sets p none, slots := upd m.slots ref none }
      else
        some { m with
               sets := upd m.sets p (some { F with refs := moved.take (F.refcount - 1) }),
               slots := upd m.slots ref none }
    | _, _ => none

/-- The function `avfilter_formats_changeref(oldref, newref)`. -/
def avfilter_formats_changeref (m : Mem) (oldref newref : Nat) : Option Mem :=
  match find_ref_index m oldref, m.slots oldref with
  | some idx, some p =>
    match m.sets p with
    | none => none
    | some F =>
      if 0 ≤ idx then
        some { m with
               sets := upd m.sets p (some { F with refs := F.refs.set idx.toNat newref }),
               slots := upd (upd m.slots newref (some p)) oldref none }
      else some m
  | _, _ => none

/-! ## Sequences of operations and the invariants of the data model -/

/-- One call of the reference manager or of the merge engine. -/
inductive Op where
  | ref (f slot : Nat)
  | unref (slot : Nat)
  | changeref (oldref newref : Nat)
  | merge (ret a b : Nat)
deriving DecidableEq, Repr

/-- The effect of a call on the memory. -/
def Op.exec (m : Mem) : Op → Option Mem
  | .ref f slot => avfilter_formats_ref m f slot
  | .unref slot => avfilter_formats_unref m slot
  | .changeref oldref newref => avfilter_formats_changeref m oldref newref
  | .merge ret a b => (avfilter_merge_formats m ret a b).map Prod.snd

/-- The calls considered with an unrestricted target of a transfer: attach
on a slot that holds no reference, detach on any slot, transfer from a slot
that holds a list to any slot, merge with a result address that is not in
use. -/
def Op.allowed (m : Mem) : Op → Bool
  | .ref _ slot => (m.slots slot).isNone
  | .unref _ => true
  | .changeref oldref _ => (m.slots oldref).isSome
  | .merge ret _ _ => (m.sets ret).isNone

/-- The calls of `Op.allowed`, a transfer being further restricted to a
target slot that holds no reference. -/
def Op.allowedEmptyTarget (m : Mem) : Op → Bool
  | .changeref oldref newref => (m.slots oldref).isSome && (m.slots newref).isNone
  | op => op.allowed m

/-- Run a sequence of calls, each of which must satisfy `ok` in the memory
it starts from and must have a defined effect. -/
def runOps (ok : Mem → Op → Bool) : Mem → List Op → Option Mem
  | m, [] => some m
  | m, op :: ops =>
    if ok m op then
      match op.exec m with
      | none => none
      | some m1 => runOps ok m1 ops
    else none

/-- A memory of freshly built lists: no list has an owner and every slot
is empty. -/
def Fresh (m : Mem) : Prop :=
  (∀ s, m.slots s = none) ∧ ∀ p F, m.sets p = some F → F.refs = []

/-- Invariant A: the reference count of each live list is the number of
slots that point at it. -/
def InvariantA (m : Mem) : Prop :=
  ∀ p F, m.sets p = some F → F.refcount = Set.ncard {s | m.slots s = some p}

/-- Invariant B: each slot listed in the owner registry of a live list
points at that list, and no slot is listed twice. -/
def InvariantB (m : Mem) : Prop :=
  ∀ p F, m.sets p = some F → F.refs.Nodup ∧ ∀ s ∈ F.refs, m.slots s = some p

/-! ## Reference descriptions used in the statements -/

/-- The working form of the two invariants: every slot that holds a pointer
points at a live list, and the owner registry of each live list lists,
without repetition, exactly the slots that point at it. -/
def Consistent (m : Mem) : Prop :=
  (∀ s p, m.slots s = some p → ∃ F, m.sets p = some F) ∧
    ∀ p F, m.sets p = some F → F.refs.Nodup ∧ ∀ s, s ∈ F.refs ↔ m.slots s = some p


/-- The values that the two nested loops of `avfilter_merge_formats` write,
in the order of the writes: for each entry `x` of `a`, in order, one copy of
`x` for each entry of `b` equal to it. -/
def merge_writes (b : List Int) : List Int → List Int
  | [] => []
  | x :: xs => List.replicate (b.count x) x ++ merge_writes b xs

/-- A memory given by the list of its format lists (the list at address `p`
is the entry `p`, `none` for an address that is not allocated) and the list
of its owner slots (the slot at address `s` is the entry `s`); every address
past the end of a list is unallocated, respectively an empty slot; no
reference count has wrapped. -/
def Mem.ofLists (sets : List (Option AVFilterFormats)) (slots : List (Option Nat)) : Mem :=
  { sets := fun p => (sets[p]?).join, slots := fun s => (slots[s]?).join,
    wrapped := fun _ => none }

/-- The memory after a merge of the lists at `a` and `b` has returned the
new list at `ret` with the candidates `fmts`: the new list owns the slots of
both inputs, these slots point at it, and both inputs are freed. -/
def merged_mem (m : Mem) (ret a b : Nat) (A B : AVFilterFormats) (fmts : List Int) : Mem :=
  { sets := fun p =>
      if p = b then none else if p = a then none
      else if p = ret then some { formats := fmts, refs := A.refs ++ B.refs }
      else m.sets p,
    slots := fun s => if s ∈ A.refs ++ B.refs then some ret else m.slots s,
    wrapped := m.wrapped }

/-! ## avfilter_make_format64_list, avfilter_add_format, avfilter_all_formats, ff_fmt_is_in -/

/-- The function `avfilter_make_format64_list(fmts)`: the same count as in
`avfilter_make_format_list`, then one `memcpy` of `count` entries. -/
def avfilter_make_format64_list (fmts : Option (List Int)) : Option AVFilterFormats :=
  let counted : Option Nat :=
    match fmts with
    | none => some 0
    | some l => make_format_list_count l 0
  match counted with
  | none => none
  | some count => some { formats := (fmts.getD []).take count, refs := [] }

/-- Modelled from the spec: the macro `AVERROR` and the constant `ENOMEM` are
not in the sources; `AVERROR(ENOMEM)` is the negated POSIX error number, the
value by which an allocation failure is signalled. -/
def AVERROR_ENOMEM : Int := -12

/-- Modelled from the spec: the macro `AVERROR` and the constant `EINVAL` are
not in the sources; `AVERROR(EINVAL)` is the negated POSIX error number, the
value by which an invalid argument text is signalled. -/
def AVERROR_EINVAL : Int := -22

/-- The function `avfilter_add_format(avff, fmt)`.  The argument `avff` is
the list `*avff` points at, `none` when `*avff` is `NULL`; `mallocz_ok` and
`realloc_ok` tell whether `av_mallocz` and `av_realloc` succeed when they are
called.  The value is the returned code and the list `*avff` points at after
the call. -/
def avfilter_add_format (mallocz_ok realloc_ok : Bool) (avff : Option AVFilterFormats)
    (fmt : Int) : Int × Option AVFilterFormats :=
  let allocated : Option AVFilterFormats :=
    match avff with
    | some F => some F
    | none => if mallocz_ok then some { formats := [], refs := [] } else none
  match allocated with
  | none => (AVERROR_ENOMEM, none)
  | some F =>
    if realloc_ok then (0, some { F with formats := F.formats ++ [fmt] })
    else (AVERROR_ENOMEM, some F)

/-- The enum `AVMediaType`, as far as `avfilter_all_formats` tells its values
apart. -/
inductive AVMediaType where
  | AVMEDIA_TYPE_VIDEO
  | AVMEDIA_TYPE_AUDIO
  | other
deriving DecidableEq, Repr

open AVMediaType (AVMEDIA_TYPE_VIDEO AVMEDIA_TYPE_AUDIO)

/-- The loop of `avfilter_all_formats`, with `n` iterations left from the
code `fmt` on.  The table `av_pix_fmt_descriptors` is not in the sources:
`hwaccel fmt` tells whether `av_pix_fmt_descriptors[fmt].flags` has the bit
`PIX_FMT_HWACCEL`.  The allocations of `avfilter_add_format`, whose result
the loop ignores, succeed. -/
def all_formats_loop (type : AVMediaType) (hwaccel : Nat → Bool) :
    Nat → Nat → Option AVFilterFormats → Option AVFilterFormats
  | 0, _, ret => ret
  | n + 1, fmt, ret =>
    if type ≠ AVMEDIA_TYPE_VIDEO ∨
        (type = AVMEDIA_TYPE_VIDEO ∧ hwaccel fmt = false) then
      all_formats_loop type hwaccel n (fmt + 1) (avfilter_add_format true true ret fmt).2
    else all_formats_loop type hwaccel n (fmt + 1) ret

/-- The function `avfilter_all_formats(type)`; the constants `PIX_FMT_NB`
and `AV_SAMPLE_FMT_NB` are not in the sources and are arguments.  The value
`none` is the pointer `NULL`. -/
def avfilter_all_formats (PIX_FMT_NB AV_SAMPLE_FMT_NB : Nat) (hwaccel : Nat → Bool)
    (type : AVMediaType) : Option AVFilterFormats :=
  let num_formats : Nat :=
    match type with
    | AVMEDIA_TYPE_VIDEO => PIX_FMT_NB
    | AVMEDIA_TYPE_AUDIO => AV_SAMPLE_FMT_NB
    | AVMediaType.other => 0
  all_formats_loop type hwaccel num_formats 0 none

/-- The function `ff_fmt_is_in(fmt, fmts)` on the array `fmts` points to.
An array in which neither `fmt` nor the terminator `-1` occurs is read past
its end, hence `none`. -/
def ff_fmt_is_in (fmt : Int) : List Int → Option Int
  | [] => none
  | p :: ps => if p = -1 then some 0 else if fmt = p then some 1 else ff_fmt_is_in fmt ps

/-! ## The scalar parsers -/

/-- Modelled from the spec: the C library function `isspace` in the "C"
locale, which is not in the sources: space, and the control characters from
horizontal tab to carriage return. -/
def isspace (c : Char) : Bool :=
  decide (c.toNat = 32) || (decide (9 ≤ c.toNat) && decide (c.toNat ≤ 13))

/-- The value of a character as a digit of `strtol`: `0`-`9`, then the
letters of either case from 10 on. -/
def digit_value (c : Char) : Option Nat :=
  if 48 ≤ c.toNat ∧ c.toNat ≤ 57 then some (c.toNat - 48)
  else if 97 ≤ c.toNat ∧ c.toNat ≤ 122 then some (c.toNat - 97 + 10)
  else if 65 ≤ c.toNat ∧ c.toNat ≤ 90 then some (c.toNat - 65 + 10)
  else none

/-- Whether `c` is a digit in the given base. -/
def is_digit_in (base : Nat) (c : Char) : Bool :=
  match digit_value c with
  | some d => decide (d < base)
  | none => false

/-- The digits of `strtol`: the value of the longest run of digits of the
base at the start of the text, after `acc`, and the rest of the text. -/
def strtol_digits (base : Nat) : List Char → Nat → Nat × List Char
  | [], acc => (acc, [])
  | c :: cs, acc =>
    match digit_value c with
    | some d => if d < base then strtol_digits base cs (acc * base + d) else (acc, c :: cs)
    | none => (acc, c :: cs)

/-- The last step of `strtol`: the conversion of the digits at the start of
`s3` in the base `b`, with the sign read before.  Without any digit there is
no conversion: the result is 0 and `*endptr` is the whole text `nptr`.  A
value outside the range of a `long` of `long_bits` bits gives `LONG_MAX` or
`LONG_MIN`. -/
def strtol_convert (long_bits : Nat) (negative : Bool) (b : Nat) (nptr s3 : List Char) :
    Int × List Char :=
  match s3 with
  | [] => (0, nptr)
  | c :: _ =>
    if is_digit_in b c then
      let r := strtol_digits b s3 0
      let v : Int := if negative then -(r.1 : Int) else (r.1 : Int)
      (max (-(2 : Int) ^ (long_bits - 1)) (min v ((2 : Int) ^ (long_bits - 1) - 1)), r.2)
    else (0, nptr)

/-- Modelled from the spec: the C library function `strtol`, which is not in
the sources, after its description in the C standard, for a `long` of
`long_bits` bits and the bases 0, 10 and 16: leading white space is skipped,
an optional sign is read, with the base 0 a prefix `0x` followed by a
hexadecimal digit selects the base 16 and a leading `0` the base 8, then the
longest run of digits is converted.  The value is the pair of the result and
of the text `*endptr` points at. -/
def strtol (long_bits : Nat) (nptr : List Char) (base : Nat) : Int × List Char :=
  let s1 := nptr.dropWhile isspace
  let negative : Bool := decide (s1.head? = some '-')
  let s2 := if s1.head? = some '-' ∨ s1.head? = some '+' then s1.tail else s1
  let hex_prefix : Bool :=
    match s2 with
    | z :: x :: d :: _ => decide (z = '0') && (decide (x = 'x') || decide (x = 'X')) &&
        is_digit_in 16 d
    | _ => false
  let b : Nat :=
    if base = 0 then (if hex_prefix then 16 else if s2.head? = some '0' then 8 else 10)
    else base
  let s3 := if (base = 0 ∨ base = 16) ∧ hex_prefix = true then s2.drop 2 else s2
  strtol_convert long_bits negative b nptr s3

/-- The conversion of a `long` to `int`, as the usual compilers define it:
the value is reduced modulo `2^32` into the range of `int`. -/
def to_int32 (v : Int) : Int := (v + 2 ^ 31) % 2 ^ 32 - 2 ^ 31

/-- The conversion of an `int` to `unsigned`. -/
def to_unsigned32 (v : Int) : Int := v % 2 ^ 32

/-- The conversion of a `long` to `int64_t`. -/
def to_int64 (v : Int) : Int := (v + 2 ^ 63) % 2 ^ 64 - 2 ^ 63

/-- The enum constant `AV_SAMPLE_FMT_NONE`, which is not in the sources. -/
def AV_SAMPLE_FMT_NONE : Int := -1

/-- The function `ff_parse_sample_format(ret, arg, log_ctx)`.  The function
`av_get_sample_fmt` and the constant `AV_SAMPLE_FMT_NB` are not in the
sources and are arguments.  The value is the returned code and what is
stored in `*ret`, if anything. -/
def ff_parse_sample_format (long_bits : Nat) (av_get_sample_fmt : List Char → Int)
    (AV_SAMPLE_FMT_NB : Nat) (arg : List Char) : Int × Option Int :=
  if av_get_sample_fmt arg = AV_SAMPLE_FMT_NONE then
    let r := strtol long_bits arg 0
    let sfmt := to_int32 r.1
    if r.2 ≠ [] ∨ to_unsigned32 sfmt ≥ (AV_SAMPLE_FMT_NB : Int) then (AVERROR_EINVAL, none)
    else (0, some sfmt)
  else (0, some (av_get_sample_fmt arg))

/-- The conversion `(int)x` of a `double` of value `x`: the fraction is
discarded; a result outside the range of `int` is undefined, hence `none`. -/
def double_to_int (x : ℚ) : Option Int :=
  if -(2 : Int) ^ 31 ≤ x.num.tdiv x.den ∧ x.num.tdiv x.den < (2 : Int) ^ 31 then
    some (x.num.tdiv x.den)
  else none

/-- The conversion of a `double` of value `x` to `unsigned`. -/
def double_to_unsigned (x : ℚ) : Option Int :=
  if 0 ≤ x.num.tdiv x.den ∧ x.num.tdiv x.den < (2 : Int) ^ 32 then some (x.num.tdiv x.den)
  else none

/-- The function `ff_parse_sample_rate(ret, arg, log_ctx)`.  The function
`av_strtod` is not in the sources and is an argument: it gives the value of
the `double` it returns, a rational number, and the text `*tail` points at;
infinities and NaN are left out.  The value is `none` where a conversion is
undefined, otherwise the returned code and what is stored in `*ret`. -/
def ff_parse_sample_rate (av_strtod : List Char → ℚ × List Char) (arg : List Char) :
    Option (Int × Option Int) :=
  let r := av_strtod arg
  if r.2 ≠ [] ∨ r.1 < 1 then some (AVERROR_EINVAL, none)
  else
    match double_to_int r.1 with
    | none => none
    | some i =>
      if (i : ℚ) ≠ r.1 then some (AVERROR_EINVAL, none)
      else
        match double_to_unsigned r.1 with
        | none => none
        | some u => some (0, some u)

/-- The function `ff_parse_channel_layout(ret, arg, log_ctx)`.  The function
`av_get_channel_layout` is not in the sources and is an argument. -/
def ff_parse_channel_layout (long_bits : Nat) (av_get_channel_layout : List Char → Int)
    (arg : List Char) : Int × Option Int :=
  if av_get_channel_layout arg = 0 then
    let r := strtol long_bits arg 10
    let chlayout := to_int64 r.1
    if r.2 ≠ [] ∨ chlayout = 0 then (AVERROR_EINVAL, none) else (0, some chlayout)
  else (0, some (av_get_channel_layout arg))

/-- The function `ff_parse_packing_format(ret, arg, log_ctx)`. -/
def ff_parse_packing_format (long_bits : Nat) (arg : List Char) : Int × Option Int :=
  let r := strtol long_bits arg 10
  let planar : Int :=
    if r.2 ≠ [] then
      (if arg = "packed".toList then 0 else if arg = "planar".toList then 1 else -1)
    else to_int32 r.1
  if planar ≠ 0 ∧ planar ≠ 1 then (AVERROR_EINVAL, none) else (0, some planar)

end Formats



namespace Formats

/-! ## The loops of the merge -/

theorem upd_same {α : Type} (f : Nat → α) (k : Nat) (v : α) : upd f k v k = v := by
  simp [upd]

theorem upd_other {α : Type} (f : Nat → α) (k x : Nat) (v : α) (h : x ≠ k) :
    upd f k v x = f x := by
  simp [upd, h]

theorem merge_inner_eq (cap : Nat) (x : Int) (b buf : List Int) (hbuf : buf.length ≤ cap) :
    merge_inner cap x b buf =
      if buf.length + b.count x ≤ cap then some (buf ++ List.replicate (b.count x) x)
      else none := by
  induction b generalizing buf with
  | nil => simp [merge_inner, hbuf]
  | cons y ys ih =>
    unfold merge_inner
    by_cases hxy : x = y
    · subst hxy
      by_cases hlt : buf.length < cap
      · have hb1 : (buf ++ [x]).length ≤ cap := by simp; omega
        rw [if_pos rfl, if_pos hlt, ih _ hb1]
        have h1 : (buf ++ [x]).length + List.count x ys = buf.length + List.count x (x :: ys) := by
          simp [List.count_cons]; omega
        rw [h1]
        by_cases hle : buf.length + List.count x (x :: ys) ≤ cap
        · simp [hle, List.count_cons, List.replicate_succ]
        · rw [if_neg hle, if_neg hle]
      · rw [if_pos rfl, if_neg hlt]
        have h2 : ¬ buf.length + List.count x (x :: ys) ≤ cap := by
          simp [List.count_cons]; omega
        rw [if_neg h2]
    · have hyx : ¬ y = x := fun h => hxy h.symm
      rw [if_neg hxy, ih _ hbuf]
      simp [List.count_cons, hyx]

theorem merge_outer_eq (cap : Nat) (b a buf : List Int) (hbuf : buf.length ≤ cap) :
    merge_outer cap b a buf =
      if buf.length + (merge_writes b a).length ≤ cap then some (buf ++ merge_writes b a)
      else none := by
  induction a generalizing buf with
  | nil => simp [merge_outer, merge_writes, hbuf]
  | cons x xs ih =>
    unfold merge_outer
    rw [merge_inner_eq _ _ _ _ hbuf]
    by_cases h1 : buf.length + b.count x ≤ cap
    · have hb1 : (buf ++ List.replicate (b.count x) x).length ≤ cap := by simp; omega
      simp only [h1, if_true, ih _ hb1, merge_writes, List.length_append, List.length_replicate,
        List.append_assoc]
      by_cases h2 : buf.length + List.count x b + (merge_writes b xs).length ≤ cap
      · have h3 : buf.length + (List.count x b + (merge_writes b xs).length) ≤ cap := by omega
        simp [h2, h3]
      · have h3 : ¬ buf.length + (List.count x b + (merge_writes b xs).length) ≤ cap := by omega
        simp [h2, h3]
    · have h3 : ¬ buf.length + (merge_writes b (x :: xs)).length ≤ cap := by
        simp [merge_writes]; omega
      simp [h1, h3]

theorem mem_merge_writes (b a : List Int) (c : Int) :
    c ∈ merge_writes b a ↔ c ∈ a ∧ c ∈ b := by
  induction a with
  | nil => simp [merge_writes]
  | cons x xs ih =>
    simp only [merge_writes, List.mem_append, List.mem_replicate, ih, List.mem_cons]
    constructor
    · rintro (⟨h1, h2⟩ | ⟨h1, h2⟩)
      · subst h2
        exact ⟨Or.inl rfl, List.count_pos_iff.mp (Nat.pos_of_ne_zero h1)⟩
      · exact ⟨Or.inr h1, h2⟩
    · rintro ⟨h1 | h1, h2⟩
      · subst h1
        exact Or.inl ⟨Nat.pos_iff_ne_zero.mp (List.count_pos_iff.mpr h2), rfl⟩
      · exact Or.inr ⟨h1, h2⟩

theorem merge_writes_eq_nil (b a : List Int) :
    merge_writes b a = [] ↔ ∀ c, c ∈ a → c ∉ b := by
  constructor
  · intro h c hc hb
    have := (mem_merge_writes b a c).mpr ⟨hc, hb⟩
    rw [h] at this
    exact absurd this (List.not_mem_nil c)
  · intro h
    apply List.eq_nil_iff_forall_not_mem.mpr
    intro c hc
    have := (mem_merge_writes b a c).mp hc
    exact h c this.1 this.2

theorem merge_writes_eq_filter (b a : List Int) (h : ∀ c ∈ a, b.count c ≤ 1) :
    merge_writes b a = a.filter (fun c => decide (c ∈ b)) := by
  induction a with
  | nil => simp [merge_writes]
  | cons x xs ih =>
    have hx := h x (List.mem_cons_self x xs)
    have ih1 := ih (fun c hc => h c (List.mem_cons_of_mem x hc))
    by_cases hm : x ∈ b
    · have h1 : b.count x = 1 := by
        have := List.count_pos_iff.mpr hm
        omega
      simp [merge_writes, h1, hm, ih1, List.filter_cons]
    · have h0 : b.count x = 0 := List.count_eq_zero.mpr hm
      simp [merge_writes, h0, hm, ih1, List.filter_cons]

/-! ## The transplant of the owners and the result of a merge -/

theorem merge_ref_loop_eq (ret : Nat) (rs l : List Nat) (sl : Nat → Option Nat) :
    merge_ref_loop ret rs (l, sl) =
      (l ++ rs, fun s => if s ∈ rs then some ret else sl s) := by
  induction rs generalizing l sl with
  | nil => simp [merge_ref_loop]
  | cons r rs ih =>
    unfold merge_ref_loop
    rw [ih]
    refine Prod.ext (by simp) ?_
    funext s
    by_cases h1 : s ∈ rs
    · simp [h1]
    · by_cases h2 : s = r
      · simp [h2, upd]
      · simp [h1, h2, upd]

theorem merge_ref_eq (m : Mem) (ret a : Nat) (R A : AVFilterFormats) (hne : ret ≠ a)
    (hR : m.sets ret = some R) (hA : m.sets a = some A) :
    merge_ref m ret a =
      some { m with
             sets := upd (upd m.sets ret (some { R with refs := R.refs ++ A.refs })) a none,
             slots := fun s => if s ∈ A.refs then some ret else m.slots s } := by
  unfold merge_ref
  rw [if_neg hne, hR, hA]
  simp only [merge_ref_loop_eq]

theorem avfilter_merge_formats_eq (m : Mem) (ret a b : Nat) (A B : AVFilterFormats)
    (hab : a ≠ b) (hA : m.sets a = some A) (hB : m.sets b = some B)
    (hret : m.sets ret = none) :
    avfilter_merge_formats m ret a b =
      if (merge_writes B.formats A.formats).length ≤ min A.formats.length B.formats.length then
        if merge_writes B.formats A.formats = [] then some (none, m)
        else some (some ret, merged_mem m ret a b A B (merge_writes B.formats A.formats))
      else none := by
  have hra : ret ≠ a := by
    intro h; rw [h, hA] at hret; exact Option.noConfusion hret
  have hrb : ret ≠ b := by
    intro h; rw [h, hB] at hret; exact Option.noConfusion hret
  have hba : b ≠ a := fun h => hab h.symm
  unfold avfilter_merge_formats
  rw [if_neg hab, hA, hB]
  simp only [AVFilterFormats.format_count]
  rw [merge_outer_eq _ _ _ _ (Nat.zero_le _)]
  simp only [List.length_nil, Nat.zero_add, List.nil_append]
  by_cases hfit : (merge_writes B.formats A.formats).length ≤ min A.formats.length B.formats.length
  · rw [if_pos hfit, if_pos hfit]
    by_cases hnil : merge_writes B.formats A.formats = []
    · simp [hnil]
    · have hlen : ¬ (merge_writes B.formats A.formats).length = 0 := by
        intro h; exact hnil (List.length_eq_zero.mp h)
      rw [if_neg hnil]
      simp only [hlen, if_false]
      rw [merge_ref_eq _ ret a { formats := merge_writes B.formats A.formats, refs := [] } A hra
        (by simp [upd]) (by simp [upd, hra.symm, hA])]
      simp only
      rw [merge_ref_eq _ ret b
        { formats := merge_writes B.formats A.formats, refs := [] ++ A.refs } B hrb
        (by simp [upd, hra]) (by simp [upd, hba, hrb.symm, hB])]
      simp only [merged_mem, Option.some.injEq, Prod.mk.injEq, true_and, Mem.mk.injEq]
      refine ⟨?_, ?_, trivial⟩
      · funext p
        by_cases h1 : p = b
        · simp [upd, h1]
        · by_cases h2 : p = a
          · simp [upd, h2, hab, hra.symm]
          · by_cases h3 : p = ret
            · simp [upd, h3, hrb, hra]
            · simp [upd, h1, h2, h3]
      · funext s
        by_cases h1 : s ∈ B.refs
        · simp [h1]
        · by_cases h2 : s ∈ A.refs
          · simp [h1, h2]
          · simp [h1, h2]
  · rw [if_neg hfit, if_neg hfit]

theorem merge_writes_length_cons (y : Int) (b a : List Int) :
    (merge_writes (y :: b) a).length = (merge_writes b a).length + a.count y := by
  induction a with
  | nil => simp [merge_writes]
  | cons x xs ih =>
    simp only [merge_writes, List.length_append, List.length_replicate, ih, List.count_cons]
    by_cases h : y = x
    · subst h; simp; omega
    · have h2 : ¬ x = y := fun e => h e.symm
      simp [h, h2]; omega

theorem merge_writes_length_nil (a : List Int) : (merge_writes [] a).length = 0 := by
  induction a with
  | nil => simp [merge_writes]
  | cons x xs ih => simp [merge_writes, ih]

theorem merge_writes_length_comm (b a : List Int) :
    (merge_writes b a).length = (merge_writes a b).length := by
  induction b with
  | nil => simp [merge_writes_length_nil, merge_writes]
  | cons y ys ih =>
    rw [merge_writes_length_cons, ih]
    simp [merge_writes]
    omega

theorem merge_returns_iff (m : Mem) (ret a b : Nat) (A B : AVFilterFormats)
    (hab : a ≠ b) (hA : m.sets a = some A) (hB : m.sets b = some B)
    (hret : m.sets ret = none) :
    (∃ p m', avfilter_merge_formats m ret a b = some (some p, m')) ↔
      (∃ c, c ∈ A.formats ∧ c ∈ B.formats) ∧
        (merge_writes B.formats A.formats).length ≤ min A.formats.length B.formats.length := by
  rw [avfilter_merge_formats_eq m ret a b A B hab hA hB hret]
  by_cases hfit : (merge_writes B.formats A.formats).length ≤ min A.formats.length B.formats.length
  · rw [if_pos hfit]
    by_cases hnil : merge_writes B.formats A.formats = []
    · rw [if_pos hnil]
      constructor
      · rintro ⟨p, m', h⟩
        simp at h
      · rintro ⟨⟨c, hc1, hc2⟩, _⟩
        exact absurd hc2 ((merge_writes_eq_nil _ _).mp hnil c hc1)
    · rw [if_neg hnil]
      constructor
      · intro _
        refine ⟨?_, hfit⟩
        by_contra hno
        apply hnil
        apply (merge_writes_eq_nil _ _).mpr
        intro c hc1 hc2
        exact hno ⟨c, hc1, hc2⟩
      · intro _
        exact ⟨ret, _, rfl⟩
  · rw [if_neg hfit]
    constructor
    · rintro ⟨p, m', h⟩
      simp at h
    · rintro ⟨_, h⟩
      exact absurd h hfit

/-! ## The merge engine: the properties checked -/

/-- C1, as stated, fails: with `A = [1, 2, 3]` and `B = [1, 1, 5]` the merge
returns the candidates `[1, 1]`, one copy of `1` for each of the two entries
of `B` equal to it, while the entries of `A` that occur in `B` are `[1]`. -/
theorem merge_repeats_for_duplicates_of_second :
    (avfilter_merge_formats
        (Mem.ofLists [some ⟨[1, 2, 3], []⟩, some ⟨[1, 1, 5], []⟩] []) 2 0 1).map
        (fun r => (r.1, (r.2.sets 2).map AVFilterFormats.formats)) = some (some 2, some [1, 1]) ∧
      ([1, 2, 3] : List Int).filter (fun c => decide (c ∈ ([1, 1, 5] : List Int))) = [1] := by
  constructor
  · rfl
  · decide

/-- C1, amended: for two distinct lists `A` and `B` that share a code, where
no code of `A` occurs more than once in `B` and the entries of `A` that occur
in `B` fit the array of `min(|A|, |B|)` entries allocated for the result, the
merge returns a new list whose candidates are, in order, exactly the entries
of `A` that also occur in `B`, the repeated entries of `A` included. -/
theorem merge_candidates_filter (m : Mem) (ret a b : Nat) (A B : AVFilterFormats)
    (hab : a ≠ b) (hA : m.sets a = some A) (hB : m.sets b = some B)
    (hret : m.sets ret = none)
    (hcommon : ∃ c, c ∈ A.formats ∧ c ∈ B.formats)
    (honce : ∀ c ∈ A.formats, B.formats.count c ≤ 1)
    (hfit : (A.formats.filter (fun c => decide (c ∈ B.formats))).length ≤
      min A.format_count B.format_count) :
    ∃ m', avfilter_merge_formats m ret a b = some (some ret, m') ∧
      (m'.sets ret).map AVFilterFormats.formats =
        some (A.formats.filter (fun c => decide (c ∈ B.formats))) := by
  have hw := merge_writes_eq_filter B.formats A.formats honce
  have hnil : ¬ merge_writes B.formats A.formats = [] := by
    intro h
    obtain ⟨c, hc1, hc2⟩ := hcommon
    exact (merge_writes_eq_nil _ _).mp h c hc1 hc2
  have hra : ret ≠ a := by
    intro h; rw [h, hA] at hret; exact Option.noConfusion hret
  have hrb : ret ≠ b := by
    intro h; rw [h, hB] at hret; exact Option.noConfusion hret
  have hfit1 : (merge_writes B.formats A.formats).length ≤ min A.formats.length B.formats.length := by
    rw [hw]; exact hfit
  refine ⟨merged_mem m ret a b A B (merge_writes B.formats A.formats), ?_, ?_⟩
  · rw [avfilter_merge_formats_eq m ret a b A B hab hA hB hret, if_pos hfit1, if_neg hnil]
  · simp [merged_mem, hra, hrb, hw]

/-- The example of C1: `[yuv420p, rgb24, nv12]` (codes 0, 2, 25) merged with
`[rgb24, nv12, yuv444p]` (codes 2, 25, 5) yields `[rgb24, nv12]`. -/
theorem merge_candidates_filter_witness :
    ∃ m', avfilter_merge_formats
        (Mem.ofLists [some ⟨[0, 2, 25], [0]⟩, some ⟨[2, 25, 5], [1]⟩] [some 0, some 1]) 2 0 1 =
          some (some 2, m') ∧
      (m'.sets 2).map AVFilterFormats.formats = some [2, 25] :=
  merge_candidates_filter
    (Mem.ofLists [some ⟨[0, 2, 25], [0]⟩, some ⟨[2, 25, 5], [1]⟩] [some 0, some 1]) 2 0 1
    ⟨[0, 2, 25], [0]⟩ ⟨[2, 25, 5], [1]⟩ (by decide) rfl rfl rfl ⟨2, by decide, by decide⟩
    (by decide) (by decide)

/-- C2: for two distinct lists `A` and `B`, `avfilter_merge_formats` returns
`NULL` if and only if no code of `A` equals a code of `B`; and when it returns
`NULL` the memory is the one before the call: the candidates, the owner
registries and the reference counts of `A` and `B` and every slot are
unchanged. -/
theorem merge_null_iff_disjoint (m : Mem) (ret a b : Nat) (A B : AVFilterFormats)
    (hab : a ≠ b) (hA : m.sets a = some A) (hB : m.sets b = some B)
    (hret : m.sets ret = none) :
    ((∃ m', avfilter_merge_formats m ret a b = some (none, m')) ↔
        ∀ c, c ∈ A.formats → c ∉ B.formats) ∧
      ∀ m', avfilter_merge_formats m ret a b = some (none, m') →
        m' = m ∧ m'.sets a = some A ∧ m'.sets b = some B ∧ ∀ s, m'.slots s = m.slots s := by
  rw [avfilter_merge_formats_eq m ret a b A B hab hA hB hret]
  by_cases hnil : merge_writes B.formats A.formats = []
  · have hfit : (merge_writes B.formats A.formats).length ≤
        min A.formats.length B.formats.length := by
      rw [hnil]; exact Nat.zero_le _
    rw [if_pos hfit, if_pos hnil]
    refine ⟨⟨fun _ => (merge_writes_eq_nil _ _).mp hnil, fun _ => ⟨m, rfl⟩⟩, ?_⟩
    intro m' h
    have hm : m' = m := by
      simp only [Option.some.injEq, Prod.mk.injEq, true_and] at h
      exact h.symm
    subst hm
    exact ⟨rfl, hA, hB, fun _ => rfl⟩
  · have hno : ¬ ∀ c, c ∈ A.formats → c ∉ B.formats :=
      fun h => hnil ((merge_writes_eq_nil _ _).mpr h)
    by_cases hfit : (merge_writes B.formats A.formats).length ≤
        min A.formats.length B.formats.length
    · rw [if_pos hfit, if_neg hnil]
      refine ⟨⟨?_, fun h => absurd h hno⟩, ?_⟩
      · rintro ⟨m', h⟩
        simp at h
      · intro m' h
        simp at h
    · rw [if_neg hfit]
      refine ⟨⟨?_, fun h => absurd h hno⟩, ?_⟩
      · rintro ⟨m', h⟩
        simp at h
      · intro m' h
        simp at h

/-- A run of C2: `[1, 2]` and `[3, 4]`, each with one owner, have no common
code. -/
theorem merge_null_iff_disjoint_witness :
    ((∃ m', avfilter_merge_formats
        (Mem.ofLists [some ⟨[1, 2], [0]⟩, some ⟨[3, 4], [1]⟩] [some 0, some 1]) 2 0 1 =
          some (none, m')) ↔
        ∀ c, c ∈ ([1, 2] : List Int) → c ∉ ([3, 4] : List Int)) ∧
      ∀ m', avfilter_merge_formats
        (Mem.ofLists [some ⟨[1, 2], [0]⟩, some ⟨[3, 4], [1]⟩] [some 0, some 1]) 2 0 1 =
          some (none, m') →
        m' = Mem.ofLists [some ⟨[1, 2], [0]⟩, some ⟨[3, 4], [1]⟩] [some 0, some 1] ∧
        m'.sets 0 = some ⟨[1, 2], [0]⟩ ∧ m'.sets 1 = some ⟨[3, 4], [1]⟩ ∧
        ∀ s, m'.slots s =
          (Mem.ofLists [some ⟨[1, 2], [0]⟩, some ⟨[3, 4], [1]⟩] [some 0, some 1]).slots s :=
  merge_null_iff_disjoint
    (Mem.ofLists [some ⟨[1, 2], [0]⟩, some ⟨[3, 4], [1]⟩] [some 0, some 1]) 2 0 1
    ⟨[1, 2], [0]⟩ ⟨[3, 4], [1]⟩ (by decide) rfl rfl rfl

theorem merged_mem_owners (m : Mem) (ret a b : Nat) (A B : AVFilterFormats) (fmts : List Int)
    (hra : ret ≠ a) (hrb : ret ≠ b) :
    ∃ M, (merged_mem m ret a b A B fmts).sets ret = some M ∧
      M.refcount = A.refcount + B.refcount ∧ M.refs = A.refs ++ B.refs ∧
      (∀ s, s ∈ M.refs ↔ s ∈ A.refs ∨ s ∈ B.refs) ∧
      ∀ s, s ∈ A.refs ∨ s ∈ B.refs → (merged_mem m ret a b A B fmts).slots s = some ret := by
  refine ⟨⟨fmts, A.refs ++ B.refs⟩, ?_, ?_, rfl, ?_, ?_⟩
  · simp [merged_mem, hra, hrb]
  · simp [AVFilterFormats.refcount]
  · intro s; simp
  · intro s hs
    have hmem : s ∈ A.refs ++ B.refs := List.mem_append.mpr hs
    show (if s ∈ A.refs ++ B.refs then some ret else m.slots s) = some ret
    rw [if_pos hmem]

/-- C3: for two distinct lists `A` and `B` with a common code, the merge
returns a list exactly when the equal pairs of codes fit the array of
`min(|A|, |B|)` entries allocated for the result; it then returns the new
list `M` at the allocated address, the reference count of `M` is the sum of
the reference counts of `A` and `B`, the owner registry of `M` is the
registry of `A` followed by the registry of `B`, and every slot listed in
either registry points at `M`; the same holds of whatever list the merge
returns. -/
theorem merge_transplants_owners (m : Mem) (ret a b : Nat) (A B : AVFilterFormats)
    (hab : a ≠ b) (hA : m.sets a = some A) (hB : m.sets b = some B)
    (hret : m.sets ret = none) (hcommon : ∃ c, c ∈ A.formats ∧ c ∈ B.formats) :
    ((∃ p m', avfilter_merge_formats m ret a b = some (some p, m')) ↔
        (merge_writes B.formats A.formats).length ≤ min A.format_count B.format_count) ∧
      ((merge_writes B.formats A.formats).length ≤ min A.format_count B.format_count →
        ∃ m' M, avfilter_merge_formats m ret a b = some (some ret, m') ∧
          m'.sets ret = some M ∧ M.refcount = A.refcount + B.refcount ∧
          M.refs = A.refs ++ B.refs ∧ (∀ s, s ∈ M.refs ↔ s ∈ A.refs ∨ s ∈ B.refs) ∧
          ∀ s, s ∈ A.refs ∨ s ∈ B.refs → m'.slots s = some ret) ∧
      ∀ p m', avfilter_merge_formats m ret a b = some (some p, m') →
        ∃ M, m'.sets p = some M ∧ M.refcount = A.refcount + B.refcount ∧
          M.refs = A.refs ++ B.refs ∧ (∀ s, s ∈ M.refs ↔ s ∈ A.refs ∨ s ∈ B.refs) ∧
          ∀ s, s ∈ A.refs ∨ s ∈ B.refs → m'.slots s = some p := by
  have hra : ret ≠ a := by
    intro e; rw [e, hA] at hret; exact Option.noConfusion hret
  have hrb : ret ≠ b := by
    intro e; rw [e, hB] at hret; exact Option.noConfusion hret
  have hnil : ¬ merge_writes B.formats A.formats = [] := by
    intro e
    obtain ⟨c, hc1, hc2⟩ := hcommon
    exact (merge_writes_eq_nil _ _).mp e c hc1 hc2
  have heq := avfilter_merge_formats_eq m ret a b A B hab hA hB hret
  refine ⟨?_, ?_, ?_⟩
  · rw [merge_returns_iff m ret a b A B hab hA hB hret]
    exact ⟨fun h => h.2, fun h => ⟨hcommon, h⟩⟩
  · intro hfit
    have hfit1 : (merge_writes B.formats A.formats).length ≤
        min A.formats.length B.formats.length := hfit
    obtain ⟨M, h1, h2, h3, h4, h5⟩ :=
      merged_mem_owners m ret a b A B (merge_writes B.formats A.formats) hra hrb
    refine ⟨merged_mem m ret a b A B (merge_writes B.formats A.formats), M, ?_, h1, h2, h3,
      h4, h5⟩
    rw [heq, if_pos hfit1, if_neg hnil]
  · intro p m' h
    rw [heq] at h
    by_cases hfit : (merge_writes B.formats A.formats).length ≤
        min A.formats.length B.formats.length
    · rw [if_pos hfit, if_neg hnil] at h
      simp only [Option.some.injEq, Prod.mk.injEq] at h
      obtain ⟨hp, hm⟩ := h
      subst hp
      subst hm
      exact merged_mem_owners m ret a b A B (merge_writes B.formats A.formats) hra hrb
    · rw [if_neg hfit] at h
      exact Option.noConfusion h

/-- A run of C3: `[1, 2]` owned by the slots 0 and 1 merged with `[2, 3]`
owned by the slot 2 returns the list `[2]` at the address 2, owned by the
slots 0, 1 and 2, which all point at it. -/
theorem merge_transplants_owners_witness :
    (∃ m' M, avfilter_merge_formats
          (Mem.ofLists [some ⟨[1, 2], [0, 1]⟩, some ⟨[2, 3], [2]⟩] [some 0, some 0, some 1])
          2 0 1 = some (some 2, m') ∧
        m'.sets 2 = some M ∧ M.refcount = 2 + 1 ∧ M.refs = [0, 1] ++ [2] ∧
        (∀ s, s ∈ M.refs ↔ s ∈ [0, 1] ∨ s ∈ [2]) ∧
        ∀ s, s ∈ [0, 1] ∨ s ∈ [2] → m'.slots s = some 2) ∧
      (avfilter_merge_formats
          (Mem.ofLists [some ⟨[1, 2], [0, 1]⟩, some ⟨[2, 3], [2]⟩] [some 0, some 0, some 1])
          2 0 1).map
          (fun r => (r.1, r.2.sets 2, r.2.slots 0, r.2.slots 1, r.2.slots 2)) =
        some (some 2, some ⟨[2], [0, 1, 2]⟩, some 2, some 2, some 2) :=
  ⟨(merge_transplants_owners
      (Mem.ofLists [some ⟨[1, 2], [0, 1]⟩, some ⟨[2, 3], [2]⟩] [some 0, some 0, some 1])
      2 0 1 ⟨[1, 2], [0, 1]⟩ ⟨[2, 3], [2]⟩ (by decide) rfl rfl rfl
      ⟨2, by decide, by decide⟩).2.1 (by decide), rfl⟩

/-- C4: `avfilter_merge_formats(A, A)` returns `A` itself and leaves the
whole memory as it was: candidates, owner registry, reference count of `A`
and every slot. -/
theorem merge_same_list (m : Mem) (ret a : Nat) :
    avfilter_merge_formats m ret a a = some (some a, m) := by
  simp [avfilter_merge_formats]

theorem merge_result_mem (m m' : Mem) (ret a b p : Nat) (A B M : AVFilterFormats)
    (hab : a ≠ b) (hA : m.sets a = some A) (hB : m.sets b = some B)
    (hret : m.sets ret = none)
    (h : avfilter_merge_formats m ret a b = some (some p, m')) (hM : m'.sets p = some M) :
    p = ret ∧ M.formats = merge_writes B.formats A.formats := by
  have hra : ret ≠ a := by
    intro e; rw [e, hA] at hret; exact Option.noConfusion hret
  have hrb : ret ≠ b := by
    intro e; rw [e, hB] at hret; exact Option.noConfusion hret
  rw [avfilter_merge_formats_eq m ret a b A B hab hA hB hret] at h
  by_cases hfit : (merge_writes B.formats A.formats).length ≤
      min A.formats.length B.formats.length
  · rw [if_pos hfit] at h
    by_cases hnil : merge_writes B.formats A.formats = []
    · rw [if_pos hnil] at h
      simp at h
    · rw [if_neg hnil] at h
      simp only [Option.some.injEq, Prod.mk.injEq] at h
      obtain ⟨hp, hm⟩ := h
      subst hp
      subst hm
      simp [merged_mem, hra, hrb] at hM
      exact ⟨rfl, by rw [← hM]⟩
  · rw [if_neg hfit] at h
    simp at h

/-- C5, as stated, fails: the list built from the empty code list merged with
itself is returned as it is, not `NULL`. -/
theorem merge_empty_with_itself :
    avfilter_make_format_list (some [-1]) = some ⟨[], []⟩ ∧
      (avfilter_merge_formats (Mem.ofLists [some ⟨[], []⟩] []) 1 0 0).map Prod.fst =
        some (some 0) := by
  constructor
  · rfl
  · rfl

/-- C5, amended: a list `E` built by `avfilter_make_format_list` from the
empty code list (a null argument or an array that starts with the terminator),
whatever owners it has got since, merged with any list `X` other than `E`
itself gives `NULL`, in either order of the arguments, and the memory is
unchanged. -/
theorem merge_with_empty_list (m : Mem) (ret a b : Nat) (fmts : Option (List Int))
    (E0 X : AVFilterFormats) (owners : List Nat)
    (hempty : fmts = none ∨ ∃ tail, fmts = some (-1 :: tail))
    (hE0 : avfilter_make_format_list fmts = some E0)
    (hab : a ≠ b) (hE : m.sets a = some { E0 with refs := owners })
    (hX : m.sets b = some X) (hret : m.sets ret = none) :
    avfilter_merge_formats m ret a b = some (none, m) ∧
      avfilter_merge_formats m ret b a = some (none, m) := by
  have hf : E0.formats = [] := by
    rcases hempty with h | ⟨tail, h⟩
    · subst h
      simp [avfilter_make_format_list, make_format_list_copy] at hE0
      rw [← hE0]
    · subst h
      simp [avfilter_make_format_list, make_format_list_count, make_format_list_copy] at hE0
      rw [← hE0]
  have h1 : merge_writes X.formats ([] : List Int) = [] := rfl
  have h2 : merge_writes ([] : List Int) X.formats = [] :=
    List.length_eq_zero.mp (merge_writes_length_nil _)
  constructor
  · rw [avfilter_merge_formats_eq m ret a b _ X hab hE hX hret]
    simp [hf, h1]
  · rw [avfilter_merge_formats_eq m ret b a X _ (fun e => hab e.symm) hX hE hret]
    simp [hf, h2]

/-- A run of the amended C5: the empty list, owned by the slot 0, and the
list `[1, 2]`. -/
theorem merge_with_empty_list_witness :
    avfilter_merge_formats (Mem.ofLists [some ⟨[], [0]⟩, some ⟨[1, 2], []⟩] [some 0]) 2 0 1 =
        some (none, Mem.ofLists [some ⟨[], [0]⟩, some ⟨[1, 2], []⟩] [some 0]) ∧
      avfilter_merge_formats (Mem.ofLists [some ⟨[], [0]⟩, some ⟨[1, 2], []⟩] [some 0]) 2 1 0 =
        some (none, Mem.ofLists [some ⟨[], [0]⟩, some ⟨[1, 2], []⟩] [some 0]) :=
  merge_with_empty_list (Mem.ofLists [some ⟨[], [0]⟩, some ⟨[1, 2], []⟩] [some 0]) 2 0 1
    (some [-1, 7]) ⟨[], []⟩ ⟨[1, 2], []⟩ [0] (Or.inr ⟨[7], rfl⟩) rfl (by decide) rfl rfl rfl

/-- C6: for two distinct lists `A` and `B`, a code is a candidate of the list
returned by the merge if and only if it is a candidate of `A` and a candidate
of `B`; the merge of `A` with `B` returns a list exactly when the merge of `B`
with `A` does, and the two returned lists have the same members. -/
theorem merge_is_intersection (m : Mem) (ret a b : Nat) (A B : AVFilterFormats)
    (hab : a ≠ b) (hA : m.sets a = some A) (hB : m.sets b = some B)
    (hret : m.sets ret = none) :
    (∀ p m' M, avfilter_merge_formats m ret a b = some (some p, m') → m'.sets p = some M →
        ∀ c, c ∈ M.formats ↔ c ∈ A.formats ∧ c ∈ B.formats) ∧
      ((∃ p m', avfilter_merge_formats m ret a b = some (some p, m')) ↔
        ∃ q m'', avfilter_merge_formats m ret b a = some (some q, m'')) ∧
      ∀ p m' M q m'' N, avfilter_merge_formats m ret a b = some (some p, m') →
        m'.sets p = some M → avfilter_merge_formats m ret b a = some (some q, m'') →
        m''.sets q = some N → ∀ c, c ∈ M.formats ↔ c ∈ N.formats := by
  have hba : b ≠ a := fun e => hab e.symm
  refine ⟨?_, ?_, ?_⟩
  · intro p m' M h hM c
    rw [(merge_result_mem m m' ret a b p A B M hab hA hB hret h hM).2]
    exact mem_merge_writes _ _ c
  · rw [merge_returns_iff m ret a b A B hab hA hB hret,
      merge_returns_iff m ret b a B A hba hB hA hret,
      merge_writes_length_comm B.formats A.formats, Nat.min_comm A.formats.length]
    constructor
    · rintro ⟨⟨c, h1, h2⟩, h3⟩
      exact ⟨⟨c, h2, h1⟩, h3⟩
    · rintro ⟨⟨c, h1, h2⟩, h3⟩
      exact ⟨⟨c, h2, h1⟩, h3⟩
  · intro p m' M q m'' N h hM h2 hN c
    rw [(merge_result_mem m m' ret a b p A B M hab hA hB hret h hM).2,
      (merge_result_mem m m'' ret b a q B A N hba hB hA hret h2 hN).2,
      mem_merge_writes, mem_merge_writes]
    exact and_comm

/-- A run of C6: `[1, 2, 3]` merged with `[3, 1, 4]` returns `[1, 3]`, and
`[3, 1, 4]` merged with `[1, 2, 3]` returns `[3, 1]`. -/
theorem merge_is_intersection_witness :
    ((∀ p m' M, avfilter_merge_formats
          (Mem.ofLists [some ⟨[1, 2, 3], []⟩, some ⟨[3, 1, 4], []⟩] []) 2 0 1 =
            some (some p, m') → m'.sets p = some M →
        ∀ c, c ∈ M.formats ↔ c ∈ ([1, 2, 3] : List Int) ∧ c ∈ ([3, 1, 4] : List Int)) ∧
      ((∃ p m', avfilter_merge_formats
          (Mem.ofLists [some ⟨[1, 2, 3], []⟩, some ⟨[3, 1, 4], []⟩] []) 2 0 1 =
            some (some p, m')) ↔
        ∃ q m'', avfilter_merge_formats
          (Mem.ofLists [some ⟨[1, 2, 3], []⟩, some ⟨[3, 1, 4], []⟩] []) 2 1 0 =
            some (some q, m'')) ∧
      ∀ p m' M q m'' N, avfilter_merge_formats
          (Mem.ofLists [some ⟨[1, 2, 3], []⟩, some ⟨[3, 1, 4], []⟩] []) 2 0 1 =
            some (some p, m') →
        m'.sets p = some M → avfilter_merge_formats
          (Mem.ofLists [some ⟨[1, 2, 3], []⟩, some ⟨[3, 1, 4], []⟩] []) 2 1 0 =
            some (some q, m'') →
        m''.sets q = some N → ∀ c, c ∈ M.formats ↔ c ∈ N.formats) ∧
      (avfilter_merge_formats
          (Mem.ofLists [some ⟨[1, 2, 3], []⟩, some ⟨[3, 1, 4], []⟩] []) 2 0 1).map
          (fun r => (r.1, (r.2.sets 2).map AVFilterFormats.formats)) =
        some (some 2, some [1, 3]) ∧
      (avfilter_merge_formats
          (Mem.ofLists [some ⟨[1, 2, 3], []⟩, some ⟨[3, 1, 4], []⟩] []) 2 1 0).map
          (fun r => (r.1, (r.2.sets 2).map AVFilterFormats.formats)) =
        some (some 2, some [3, 1]) :=
  ⟨merge_is_intersection (Mem.ofLists [some ⟨[1, 2, 3], []⟩, some ⟨[3, 1, 4], []⟩] []) 2 0 1
    ⟨[1, 2, 3], []⟩ ⟨[3, 1, 4], []⟩ (by decide) rfl rfl rfl, rfl, rfl⟩

/-! ## The reference manager: the effect of each call -/

theorem first_split (ref : Nat) (rs : List Nat) (h : ref ∈ rs) :
    ∃ l1 l2, rs = l1 ++ ref :: l2 ∧ ref ∉ l1 := by
  induction rs with
  | nil => exact absurd h (List.not_mem_nil ref)
  | cons r rs ih =>
    by_cases hr : r = ref
    · exact ⟨[], rs, by simp [hr], List.not_mem_nil ref⟩
    · have hmem : ref ∈ rs := by
        rcases List.mem_cons.mp h with h1 | h1
        · exact absurd h1.symm hr
        · exact h1
      obtain ⟨l1, l2, h1, h2⟩ := ih hmem
      refine ⟨r :: l1, l2, by simp [h1], ?_⟩
      intro hc
      rcases List.mem_cons.mp hc with h4 | h4
      · exact hr h4.symm
      · exact h2 h4

theorem find_ref_index_loop_split (ref : Nat) (l1 l2 : List Nat) (i : Nat) (h : ref ∉ l1) :
    find_ref_index_loop ref (l1 ++ ref :: l2) i = ((i + l1.length : Nat) : Int) := by
  induction l1 generalizing i with
  | nil => simp [find_ref_index_loop]
  | cons r rs ih =>
    have hr : ¬ r = ref := fun e => h (by simp [e])
    have hmem : ref ∉ rs := fun e => h (List.mem_cons_of_mem r e)
    show find_ref_index_loop ref (r :: (rs ++ ref :: l2)) i = _
    unfold find_ref_index_loop
    rw [if_neg hr, ih (i + 1) hmem]
    simp only [List.length_cons]
    congr 1
    omega

theorem find_ref_index_loop_of_not_mem (ref : Nat) (rs : List Nat) (i : Nat) (h : ref ∉ rs) :
    find_ref_index_loop ref rs i = -1 := by
  induction rs generalizing i with
  | nil => rfl
  | cons r rs ih =>
    have hr : ¬ r = ref := fun e => h (by simp [e])
    have hmem : ref ∉ rs := fun e => h (List.mem_cons_of_mem r e)
    simp only [find_ref_index_loop, if_neg hr]
    exact ih (i + 1) hmem

theorem memmove_refs_take (l1 l2 : List Nat) (r : Nat) :
    (memmove_refs (l1 ++ r :: l2) l1.length).take ((l1 ++ r :: l2).length - 1) = l1 ++ l2 := by
  have h1 : (l1 ++ r :: l2).take l1.length = l1 := by simp
  have h2 : (l1 ++ r :: l2).drop (l1.length + 1) = l2 := by
    rw [List.drop_append_eq_append_drop]
    simp
  have h3 : (l1 ++ r :: l2).length - 1 = (l1 ++ l2).length := by simp
  unfold memmove_refs
  rw [h1, h2, h3, List.append_assoc l1 l2, ← List.append_assoc l1 l2, List.take_left]

theorem set_at_split (l1 l2 : List Nat) (r n : Nat) :
    (l1 ++ r :: l2).set l1.length n = l1 ++ n :: l2 := by
  induction l1 with
  | nil => rfl
  | cons x xs ih => simp [List.set, ih]

theorem erase_at_split (l1 l2 : List Nat) (r : Nat) (h : r ∉ l1) :
    (l1 ++ r :: l2).erase r = l1 ++ l2 := by
  rw [List.erase_append_right _ h]
  simp

/-- The effect of a detach of a slot that is listed in the registry of the
list it points at. -/
theorem unref_listed (m : Mem) (ref p : Nat) (F : AVFilterFormats) (l1 l2 : List Nat)
    (hs : m.slots ref = some p) (hF : m.sets p = some F)
    (hsplit : F.refs = l1 ++ ref :: l2) (h1 : ref ∉ l1) :
    avfilter_formats_unref m ref =
      some { m with
             sets := upd m.sets p
               (if l1 ++ l2 = [] then none else some { F with refs := l1 ++ l2 }),
             slots := upd m.slots ref none } := by
  have hidx : find_ref_index m ref = some ((l1.length : Nat) : Int) := by
    simp [find_ref_index, hs, hF, hsplit, find_ref_index_loop_split ref l1 l2 0 h1]
  have hlen : F.refcount = (l1 ++ ref :: l2).length := by
    simp [AVFilterFormats.refcount, hsplit]
  have hlen1 : F.refcount = (l1 ++ l2).length + 1 := by
    simp [AVFilterFormats.refcount, hsplit]
    omega
  have hlen0 : ¬ F.refcount = 0 := by
    rw [hlen1]; omega
  have hmv : (memmove_refs F.refs l1.length).take (F.refcount - 1) = l1 ++ l2 := by
    rw [hlen, hsplit]; exact memmove_refs_take l1 l2 ref
  unfold avfilter_formats_unref
  simp only [hs, hidx, hF, if_neg hlen0, Int.toNat_ofNat, Int.ofNat_zero_le, if_true, hmv]
  by_cases hnil : l1 ++ l2 = []
  · have h0 : F.refcount - 1 = 0 := by
      rw [hlen1, hnil]; rfl
    rw [if_pos h0, if_pos hnil]
  · have h0 : ¬ F.refcount - 1 = 0 := by
      rw [hlen1]
      intro e
      apply hnil
      apply List.length_eq_zero.mp
      omega
    rw [if_neg h0, if_neg hnil]

/-- The effect of a transfer from a slot that is listed in the registry of
the list it points at. -/
theorem changeref_listed (m : Mem) (oldref newref p : Nat) (F : AVFilterFormats)
    (l1 l2 : List Nat) (hs : m.slots oldref = some p) (hF : m.sets p = some F)
    (hsplit : F.refs = l1 ++ oldref :: l2) (h1 : oldref ∉ l1) :
    avfilter_formats_changeref m oldref newref =
      some { m with
             sets := upd m.sets p (some { F with refs := l1 ++ newref :: l2 }),
             slots := upd (upd m.slots newref (some p)) oldref none } := by
  have hidx : find_ref_index m oldref = some ((l1.length : Nat) : Int) := by
    simp [find_ref_index, hs, hF, hsplit, find_ref_index_loop_split oldref l1 l2 0 h1]
  unfold avfilter_formats_changeref
  simp only [hs, hidx, hF, Int.toNat_ofNat, Int.ofNat_zero_le, if_true, hsplit, set_at_split]

/-- The effect of a transfer from a slot that is not listed in the registry
of the list it points at: nothing changes. -/
theorem changeref_not_listed (m : Mem) (oldref newref p : Nat) (F : AVFilterFormats)
    (hs : m.slots oldref = some p) (hF : m.sets p = some F) (h1 : oldref ∉ F.refs) :
    avfilter_formats_changeref m oldref newref = some m := by
  have hidx : find_ref_index m oldref = some (-1) := by
    simp [find_ref_index, hs, hF, find_ref_index_loop_of_not_mem oldref F.refs 0 h1]
  unfold avfilter_formats_changeref
  simp [hs, hidx, hF]

/-! ## The reference manager: the properties checked -/

/-- C8, as stated, fails: for a list without owner, attach then detach on an
empty slot frees the list, so that its reference count and its candidates are
not restored: nothing is left at its address. -/
theorem ref_unref_frees_unowned :
    ((avfilter_formats_ref (Mem.ofLists [some ⟨[1, 2], []⟩] []) 0 0).bind
        (fun m1 => avfilter_formats_unref m1 0)).map (fun m2 => (m2.sets 0, m2.slots 0)) =
      some (none, none) := by
  rfl

/-- C8, amended: for a list `S` that has at least one owner and a slot that
holds no reference, `avfilter_formats_ref(S, slot)` followed by
`avfilter_formats_unref(slot)` leaves the slot empty, the candidates and the
reference count of `S` as before the attach, and the owner registry with the
same owners as before; when the slot was not listed in the registry the
registry is the same sequence and the whole memory is the one before the
attach. -/
theorem ref_unref_restores (m : Mem) (f slot : Nat) (S : AVFilterFormats)
    (hS : m.sets f = some S) (hslot : m.slots slot = none) (howned : S.refs ≠ []) :
    ∃ m1 m2 S2, avfilter_formats_ref m f slot = some m1 ∧
      avfilter_formats_unref m1 slot = some m2 ∧
      m2.slots slot = none ∧ m2.sets f = some S2 ∧
      S2.formats = S.formats ∧ S2.refcount = S.refcount ∧ S2.refs.Perm S.refs ∧
      (slot ∉ S.refs → S2.refs = S.refs ∧ m2 = m) := by
  have href : avfilter_formats_ref m f slot =
      some { m with
             sets := upd m.sets f (some { S with refs := S.refs ++ [slot] }),
             slots := upd m.slots slot (some f) } := by
    simp [avfilter_formats_ref, hS]
  obtain ⟨l1, l2, hsplit, hnot⟩ := first_split slot (S.refs ++ [slot]) (by simp)
  have hun := unref_listed
    { m with
      sets := upd m.sets f (some { S with refs := S.refs ++ [slot] }),
      slots := upd m.slots slot (some f) } slot f
    { S with refs := S.refs ++ [slot] } l1 l2 (by simp [upd]) (by simp [upd]) hsplit hnot
  have hperm : (l1 ++ l2).Perm S.refs := by
    have h1 : (slot :: (l1 ++ l2)).Perm (slot :: S.refs) := by
      calc (slot :: (l1 ++ l2)).Perm (l1 ++ slot :: l2) := List.perm_middle.symm
        _ = S.refs ++ [slot] := hsplit.symm
        _ |>.Perm (slot :: S.refs) := List.perm_append_singleton slot S.refs
    exact (List.perm_cons slot).mp h1
  have hnil : ¬ l1 ++ l2 = [] := by
    intro e
    rw [e] at hperm
    exact howned (List.Perm.nil_eq hperm).symm
  rw [if_neg hnil] at hun
  refine ⟨_, _, { S with refs := l1 ++ l2 }, href, hun, by simp [upd], by simp [upd], rfl, ?_,
    hperm, ?_⟩
  · simp only [AVFilterFormats.refcount]
    exact hperm.length_eq
  · intro hnl
    have herase : (S.refs ++ [slot]).erase slot = S.refs := by
      rw [List.erase_append_right _ hnl]
      simp
    have heq : l1 ++ l2 = S.refs := by
      rw [← herase, hsplit]
      exact (erase_at_split l1 l2 slot hnot).symm
    refine ⟨heq, ?_⟩
    cases m with
    | mk sets slots wrapped =>
      simp only [Mem.mk.injEq]
      refine ⟨?_, ?_, trivial⟩
      · funext q
        by_cases hq : q = f
        · subst hq
          simp only [upd, if_true]
          rw [heq]
          exact hS.symm
        · simp [upd, hq]
      · funext s
        by_cases hq : s = slot
        · subst hq
          simp only [upd, if_true]
          exact hslot.symm
        · simp [upd, hq]

/-- A run of the amended C8: the list `[1, 2]` owned by the slot 0, and the
empty slot 1. -/
theorem ref_unref_restores_witness :
    ∃ m1 m2 S2,
      avfilter_formats_ref (Mem.ofLists [some ⟨[1, 2], [0]⟩] [some 0, none]) 0 1 = some m1 ∧
      avfilter_formats_unref m1 1 = some m2 ∧
      m2.slots 1 = none ∧ m2.sets 0 = some S2 ∧
      S2.formats = [1, 2] ∧ S2.refcount = 1 ∧ S2.refs.Perm [0] ∧
      (1 ∉ [0] → S2.refs = [0] ∧ m2 = Mem.ofLists [some ⟨[1, 2], [0]⟩] [some 0, none]) :=
  ref_unref_restores (Mem.ofLists [some ⟨[1, 2], [0]⟩] [some 0, none]) 0 1 ⟨[1, 2], [0]⟩
    rfl rfl (by decide)

/-- C9: for a slot that points at a list `S` and is listed in its registry,
`avfilter_formats_unref` removes the entry of the slot (the first one) from
the registry and keeps the other entries in their order, which lowers the
reference count by one, and sets the slot to `NULL`; `S` is freed if and only
if its reference count was one; otherwise its candidates are unchanged; no
other slot and no other list is changed. -/
theorem unref_removes_owner (m : Mem) (slot p : Nat) (S : AVFilterFormats)
    (hs : m.slots slot = some p) (hS : m.sets p = some S) (hl : slot ∈ S.refs) :
    ∃ m' l1 l2, avfilter_formats_unref m slot = some m' ∧
      S.refs = l1 ++ slot :: l2 ∧ slot ∉ l1 ∧ (l1 ++ l2).length + 1 = S.refcount ∧
      m'.slots slot = none ∧ (∀ s, s ≠ slot → m'.slots s = m.slots s) ∧
      (∀ q, q ≠ p → m'.sets q = m.sets q) ∧
      (m'.sets p = none ↔ S.refcount = 1) ∧ (S.refcount = 1 ↔ S.refs = [slot]) ∧
      (S.refcount ≠ 1 → m'.sets p = some { formats := S.formats, refs := l1 ++ l2 }) := by
  obtain ⟨l1, l2, hsplit, hnot⟩ := first_split slot S.refs hl
  have hun := unref_listed m slot p S l1 l2 hs hS hsplit hnot
  have hcount : (l1 ++ l2).length + 1 = S.refcount := by
    simp [AVFilterFormats.refcount, hsplit]
    omega
  have hone : S.refcount = 1 ↔ l1 ++ l2 = [] := by
    rw [← hcount]
    constructor
    · intro e
      apply List.length_eq_zero.mp
      omega
    · intro e
      rw [e]; rfl
  have hone2 : l1 ++ l2 = [] ↔ S.refs = [slot] := by
    rw [hsplit]
    constructor
    · intro e
      obtain ⟨e1, e2⟩ := List.append_eq_nil.mp e
      rw [e1, e2]; rfl
    · intro e
      cases l1 with
      | nil =>
        simp at e
        simp [e]
      | cons x xs => simp at e
  refine ⟨_, l1, l2, hun, hsplit, hnot, hcount, by simp [upd], ?_, ?_, ?_, hone.trans hone2, ?_⟩
  · intro s hne
    simp [upd, hne]
  · intro q hne
    simp [upd, hne]
  · rw [hone]
    by_cases hnil : l1 ++ l2 = []
    · simp [upd, hnil]
    · simp [upd, hnil]
  · intro hne
    have hnil : ¬ l1 ++ l2 = [] := fun e => hne (hone.mpr e)
    simp [upd, hnil]

/-- A run of C9: the list `[7]` owned by the slots 0, 1 and 2; the slot 1 is
detached. -/
theorem unref_removes_owner_witness :
    ∃ m' l1 l2,
      avfilter_formats_unref (Mem.ofLists [some ⟨[7], [0, 1, 2]⟩] [some 0, some 0, some 0]) 1 =
        some m' ∧
      [0, 1, 2] = l1 ++ 1 :: l2 ∧ 1 ∉ l1 ∧ (l1 ++ l2).length + 1 = 3 ∧
      m'.slots 1 = none ∧
      (∀ s, s ≠ 1 → m'.slots s =
        (Mem.ofLists [some ⟨[7], [0, 1, 2]⟩] [some 0, some 0, some 0]).slots s) ∧
      (∀ q, q ≠ 0 → m'.sets q =
        (Mem.ofLists [some ⟨[7], [0, 1, 2]⟩] [some 0, some 0, some 0]).sets q) ∧
      (m'.sets 0 = none ↔ 3 = 1) ∧ (3 = 1 ↔ [0, 1, 2] = [1]) ∧
      (3 ≠ 1 → m'.sets 0 = some { formats := [7], refs := l1 ++ l2 }) :=
  unref_removes_owner (Mem.ofLists [some ⟨[7], [0, 1, 2]⟩] [some 0, some 0, some 0]) 1 0
    ⟨[7], [0, 1, 2]⟩ rfl rfl (by decide)

/-- C10, as stated, fails when the new slot is the old slot: the entry is
replaced by itself and the slot is then cleared, so that the new slot does
not point at the list although it is listed in its registry. -/
theorem changeref_same_slot_clears :
    (avfilter_formats_changeref (Mem.ofLists [some ⟨[1], [0]⟩] [some 0]) 0 0).map
        (fun m' => (m'.sets 0, m'.slots 0)) = some (some ⟨[1], [0]⟩, none) := by
  rfl

/-- C10, amended: for an old slot that points at a list `S` and any new slot,
`avfilter_formats_changeref` leaves the reference count and the candidates of
`S` unchanged and changes no other list; if the old slot is listed in the
registry of `S`, its entry (the first one) is replaced in place by the new
slot, the other entries are untouched, the old slot is cleared, no third
slot is changed, and the new slot points at `S` provided it is not the old
slot itself; if the old slot is not listed, the memory is unchanged. -/
theorem changeref_moves_owner (m : Mem) (oldref newref p : Nat) (S : AVFilterFormats)
    (hs : m.slots oldref = some p) (hS : m.sets p = some S) :
    ∃ m' S', avfilter_formats_changeref m oldref newref = some m' ∧
      m'.sets p = some S' ∧ S'.refcount = S.refcount ∧ S'.formats = S.formats ∧
      (∀ q, q ≠ p → m'.sets q = m.sets q) ∧
      (oldref ∈ S.refs → ∃ l1 l2, S.refs = l1 ++ oldref :: l2 ∧ oldref ∉ l1 ∧
        S'.refs = l1 ++ newref :: l2 ∧ m'.slots oldref = none ∧
        (newref ≠ oldref → m'.slots newref = some p) ∧
        ∀ s, s ≠ oldref → s ≠ newref → m'.slots s = m.slots s) ∧
      (oldref ∉ S.refs → m' = m) := by
  by_cases hl : oldref ∈ S.refs
  · obtain ⟨l1, l2, hsplit, hnot⟩ := first_split oldref S.refs hl
    have hch := changeref_listed m oldref newref p S l1 l2 hs hS hsplit hnot
    refine ⟨_, { S with refs := l1 ++ newref :: l2 }, hch, by simp [upd], ?_, rfl, ?_, ?_, ?_⟩
    · simp [AVFilterFormats.refcount, hsplit]
    · intro q hne
      simp [upd, hne]
    · intro _
      refine ⟨l1, l2, hsplit, hnot, rfl, by simp [upd], ?_, ?_⟩
      · intro hne
        simp [upd, hne]
      · intro s h1 h2
        simp [upd, h1, h2]
    · intro hn
      exact absurd hl hn
  · have hch := changeref_not_listed m oldref newref p S hs hS hl
    refine ⟨m, S, hch, hS, rfl, rfl, fun _ _ => rfl, ?_, fun _ => rfl⟩
    intro h
    exact absurd h hl

/-- A run of the amended C10: the list `[7]` owned by the slots 0 and 1; the
ownership of the slot 1 moves to the slot 2. -/
theorem changeref_moves_owner_witness :
    ∃ m' S',
      avfilter_formats_changeref
        (Mem.ofLists [some ⟨[7], [0, 1]⟩] [some 0, some 0, none]) 1 2 = some m' ∧
      m'.sets 0 = some S' ∧ S'.refcount = 2 ∧ S'.formats = [7] ∧
      (∀ q, q ≠ 0 → m'.sets q =
        (Mem.ofLists [some ⟨[7], [0, 1]⟩] [some 0, some 0, none]).sets q) ∧
      (1 ∈ [0, 1] → ∃ l1 l2, [0, 1] = l1 ++ 1 :: l2 ∧ 1 ∉ l1 ∧
        S'.refs = l1 ++ 2 :: l2 ∧ m'.slots 1 = none ∧
        (2 ≠ 1 → m'.slots 2 = some 0) ∧
        ∀ s, s ≠ 1 → s ≠ 2 → m'.slots s =
          (Mem.ofLists [some ⟨[7], [0, 1]⟩] [some 0, some 0, none]).slots s) ∧
      (1 ∉ [0, 1] → m' = Mem.ofLists [some ⟨[7], [0, 1]⟩] [some 0, some 0, none]) :=
  changeref_moves_owner (Mem.ofLists [some ⟨[7], [0, 1]⟩] [some 0, some 0, none]) 1 2 0
    ⟨[7], [0, 1]⟩ rfl rfl

/-! ## Invariants A and B along sequences of calls -/

theorem consistent_of_fresh (m : Mem) (h : Fresh m) : Consistent m := by
  refine ⟨?_, ?_⟩
  · intro s p hs
    rw [h.1 s] at hs
    exact Option.noConfusion hs
  · intro p F hF
    have hr := h.2 p F hF
    rw [hr]
    refine ⟨List.nodup_nil, ?_⟩
    intro s
    simp [h.1 s]

theorem invariants_of_consistent (m : Mem) (h : Consistent m) :
    InvariantA m ∧ InvariantB m := by
  refine ⟨?_, ?_⟩
  · intro p F hF
    obtain ⟨hnd, hmem⟩ := h.2 p F hF
    have hset : {s | m.slots s = some p} = ((F.refs.toFinset : Finset Nat) : Set Nat) := by
      ext s
      simp [hmem s]
    rw [hset, Set.ncard_coe_Finset, List.toFinset_card_of_nodup hnd]
    rfl
  · intro p F hF
    obtain ⟨hnd, hmem⟩ := h.2 p F hF
    exact ⟨hnd, fun s hs => (hmem s).mp hs⟩

theorem consistent_ref (m m' : Mem) (f slot : Nat) (h : Consistent m)
    (hslot : m.slots slot = none) (hr : avfilter_formats_ref m f slot = some m') :
    Consistent m' := by
  unfold avfilter_formats_ref at hr
  cases hF : m.sets f with
  | none => rw [hF] at hr; exact Option.noConfusion hr
  | some F =>
    rw [hF] at hr
    simp only [Option.some.injEq] at hr
    subst hr
    obtain ⟨hnd, hmem⟩ := h.2 f F hF
    have hnot : slot ∉ F.refs := by
      intro e
      have := (hmem slot).mp e
      rw [hslot] at this
      exact Option.noConfusion this
    refine ⟨?_, ?_⟩
    · intro s p hs
      by_cases hp : p = f
      · exact ⟨{ F with refs := F.refs ++ [slot] }, by simp [upd, hp]⟩
      · by_cases hsl : s = slot
        · simp [upd, hsl] at hs
          exact absurd hs.symm hp
        · simp only [upd, if_neg hsl] at hs
          obtain ⟨G, hG⟩ := h.1 s p hs
          exact ⟨G, by simp [upd, hp, hG]⟩
    · intro p G hG
      by_cases hp : p = f
      · subst hp
        simp only [upd, if_true, Option.some.injEq] at hG
        subst hG
        refine ⟨?_, ?_⟩
        · simp only
          exact List.Nodup.append hnd (List.nodup_singleton slot)
            (by simpa using hnot)
        · intro s
          by_cases hsl : s = slot
          · simp [upd, hsl]
          · simp [upd, hsl, hmem s]
      · simp only [upd, if_neg hp] at hG
        obtain ⟨hnd2, hmem2⟩ := h.2 p G hG
        refine ⟨hnd2, ?_⟩
        intro s
        by_cases hsl : s = slot
        · subst hsl
          have h1 : s ∉ G.refs := by
            intro e
            have := (hmem2 s).mp e
            rw [hslot] at this
            exact Option.noConfusion this
          have hfp : ¬ f = p := fun e => hp e.symm
          simp [upd, h1, hfp]
        · simp [upd, hsl, hmem2 s]

theorem nodup_split (l1 l2 : List Nat) (r : Nat) (h : (l1 ++ r :: l2).Nodup) :
    (l1 ++ l2).Nodup ∧ r ∉ l1 ∧ r ∉ l2 := by
  have h1 := List.nodup_middle.mp h
  have h2 := List.nodup_cons.mp h1
  refine ⟨h2.2, ?_, ?_⟩
  · intro e; exact h2.1 (List.mem_append_left l2 e)
  · intro e; exact h2.1 (List.mem_append_right l1 e)

theorem consistent_unref (m m' : Mem) (slot : Nat) (h : Consistent m)
    (hr : avfilter_formats_unref m slot = some m') : Consistent m' := by
  cases hs : m.slots slot with
  | none =>
    simp [avfilter_formats_unref, hs] at hr
    subst hr
    exact h
  | some p =>
    obtain ⟨F, hF⟩ := h.1 slot p hs
    obtain ⟨hnd, hmem⟩ := h.2 p F hF
    have hl : slot ∈ F.refs := (hmem slot).mpr hs
    obtain ⟨l1, l2, hsplit, hnot⟩ := first_split slot F.refs hl
    rw [unref_listed m slot p F l1 l2 hs hF hsplit hnot] at hr
    simp only [Option.some.injEq] at hr
    subst hr
    rw [hsplit] at hnd
    obtain ⟨hnd2, hn1, hn2⟩ := nodup_split l1 l2 slot hnd
    have hmem2 : ∀ s, s ≠ slot → (s ∈ l1 ++ l2 ↔ m.slots s = some p) := by
      intro s hne
      rw [← hmem s, hsplit]
      simp [hne]
    refine ⟨?_, ?_⟩
    · intro s q hq
      by_cases hsl : s = slot
      · simp [upd, hsl] at hq
      · simp only [upd, if_neg hsl] at hq
        by_cases hqp : q = p
        · subst hqp
          have hin : s ∈ l1 ++ l2 := (hmem2 s hsl).mpr hq
          have hnil : ¬ l1 ++ l2 = [] := fun e => by rw [e] at hin; exact List.not_mem_nil s hin
          exact ⟨{ F with refs := l1 ++ l2 }, by simp [upd, hnil]⟩
        · obtain ⟨G, hG⟩ := h.1 s q hq
          exact ⟨G, by simp [upd, hqp, hG]⟩
    · intro q G hG
      by_cases hqp : q = p
      · subst hqp
        by_cases hnil : l1 ++ l2 = []
        · simp [upd, hnil] at hG
        · simp only [upd, if_true, if_neg hnil, Option.some.injEq] at hG
          subst hG
          refine ⟨hnd2, ?_⟩
          intro s
          by_cases hsl : s = slot
          · subst hsl
            have : s ∉ l1 ++ l2 := by
              intro e
              rcases List.mem_append.mp e with e1 | e1
              · exact hn1 e1
              · exact hn2 e1
            simp only [upd, if_true]
            constructor
            · intro e; exact absurd e this
            · intro e; exact Option.noConfusion e
          · simp only [upd, if_neg hsl]
            exact hmem2 s hsl
      · simp only [upd, if_neg hqp] at hG
        obtain ⟨hnd3, hmem3⟩ := h.2 q G hG
        refine ⟨hnd3, ?_⟩
        intro s
        by_cases hsl : s = slot
        · subst hsl
          have h1 : s ∉ G.refs := by
            intro e
            have := (hmem3 s).mp e
            rw [hs] at this
            simp only [Option.some.injEq] at this
            exact hqp this.symm
          simp only [upd, if_true]
          constructor
          · intro e; exact absurd e h1
          · intro e; exact Option.noConfusion e
        · simp only [upd, if_neg hsl]
          exact hmem3 s

theorem changeref_some (m m' : Mem) (oldref newref : Nat)
    (hr : avfilter_formats_changeref m oldref newref = some m') :
    ∃ p F, m.slots oldref = some p ∧ m.sets p = some F := by
  unfold avfilter_formats_changeref find_ref_index at hr
  cases hs : m.slots oldref with
  | none => simp [hs] at hr
  | some p =>
    cases hF : m.sets p with
    | none => simp [hs, hF] at hr
    | some F => exact ⟨p, F, rfl, hF⟩

theorem consistent_changeref (m m' : Mem) (oldref newref : Nat) (h : Consistent m)
    (hnew : m.slots newref = none)
    (hr : avfilter_formats_changeref m oldref newref = some m') : Consistent m' := by
  obtain ⟨p, F, hs, hF⟩ := changeref_some m m' oldref newref hr
  obtain ⟨hnd, hmem⟩ := h.2 p F hF
  have hl : oldref ∈ F.refs := (hmem oldref).mpr hs
  obtain ⟨l1, l2, hsplit, hnot⟩ := first_split oldref F.refs hl
  rw [changeref_listed m oldref newref p F l1 l2 hs hF hsplit hnot] at hr
  simp only [Option.some.injEq] at hr
  subst hr
  have hne : newref ≠ oldref := by
    intro e
    rw [e, hs] at hnew
    exact Option.noConfusion hnew
  have hnewnot : newref ∉ F.refs := by
    intro e
    have := (hmem newref).mp e
    rw [hnew] at this
    exact Option.noConfusion this
  rw [hsplit] at hnd hnewnot
  obtain ⟨hnd2, hn1, hn2⟩ := nodup_split l1 l2 oldref hnd
  have hnew12 : newref ∉ l1 ++ l2 := by
    intro e
    apply hnewnot
    rcases List.mem_append.mp e with e1 | e1
    · exact List.mem_append_left _ e1
    · exact List.mem_append_right _ (List.mem_cons_of_mem _ e1)
  have hmem2 : ∀ s, s ≠ oldref → (s ∈ l1 ++ l2 ↔ m.slots s = some p) := by
    intro s hne2
    rw [← hmem s, hsplit]
    simp [hne2]
  refine ⟨?_, ?_⟩
  · intro s q hq
    by_cases hqp : q = p
    · exact ⟨{ F with refs := l1 ++ newref :: l2 }, by simp [upd, hqp]⟩
    · by_cases hso : s = oldref
      · simp [upd, hso] at hq
      · by_cases hsn : s = newref
        · simp [upd, hso, hsn, hne] at hq
          exact absurd hq.symm hqp
        · simp only [upd, if_neg hso, if_neg hsn] at hq
          obtain ⟨G, hG⟩ := h.1 s q hq
          exact ⟨G, by simp [upd, hqp, hG]⟩
  · intro q G hG
    by_cases hqp : q = p
    · subst hqp
      simp only [upd, if_true, Option.some.injEq] at hG
      subst hG
      refine ⟨?_, ?_⟩
      · apply List.nodup_middle.mpr
        exact List.nodup_cons.mpr ⟨hnew12, hnd2⟩
      · intro s
        by_cases hso : s = oldref
        · subst hso
          have hne2 : ¬ s = newref := fun e => hne e.symm
          simp [upd, hn1, hn2, hne2]
        · by_cases hsn : s = newref
          · subst hsn
            simp [upd, hso]
          · simp only [upd, if_neg hso, if_neg hsn]
            rw [← hmem2 s hso]
            simp [hsn]
    · simp only [upd, if_neg hqp] at hG
      obtain ⟨hnd3, hmem3⟩ := h.2 q G hG
      refine ⟨hnd3, ?_⟩
      intro s
      by_cases hso : s = oldref
      · subst hso
        have h1 : s ∉ G.refs := by
          intro e
          have := (hmem3 s).mp e
          rw [hs] at this
          simp only [Option.some.injEq] at this
          exact hqp this.symm
        simp [upd, h1]
      · by_cases hsn : s = newref
        · subst hsn
          have h1 : s ∉ G.refs := by
            intro e
            have := (hmem3 s).mp e
            rw [hnew] at this
            exact Option.noConfusion this
          have hpq : ¬ p = q := fun e => hqp e.symm
          simp [upd, hso, h1, hpq]
        · simp only [upd, if_neg hso, if_neg hsn]
          exact hmem3 s

theorem merge_wrapped_unchanged (m m' : Mem) (a b : Nat) (r : Option Nat)
    (hr : (match formats_at m a, formats_at m b with
      | some fa, some fb =>
        match merge_outer (min fa.length fb.length) fb fa [] with
        | none => none
        | some fmts => if fmts.length = 0 then some (none, m) else none
      | _, _ => none) = some (r, m')) : m' = m := by
  cases h1 : formats_at m a with
  | none => simp [h1] at hr
  | some fa =>
    cases h2 : formats_at m b with
    | none => simp [h1, h2] at hr
    | some fb =>
      simp only [h1, h2] at hr
      cases h3 : merge_outer (min fa.length fb.length) fb fa [] with
      | none => simp [h3] at hr
      | some fmts =>
        simp only [h3] at hr
        by_cases h4 : fmts.length = 0
        · simp only [if_pos h4, Option.some.injEq, Prod.mk.injEq] at hr
          exact hr.2.symm
        · simp [h4] at hr

theorem merge_some_live (m m' : Mem) (ret a b : Nat) (r : Option Nat) (hab : a ≠ b)
    (hr : avfilter_merge_formats m ret a b = some (r, m')) :
    (∃ A B, m.sets a = some A ∧ m.sets b = some B) ∨ m' = m := by
  unfold avfilter_merge_formats at hr
  rw [if_neg hab] at hr
  cases hA : m.sets a with
  | none =>
    simp only [hA] at hr
    exact Or.inr (merge_wrapped_unchanged m m' a b r hr)
  | some A =>
    cases hB : m.sets b with
    | none =>
      simp only [hA, hB] at hr
      exact Or.inr (merge_wrapped_unchanged m m' a b r hr)
    | some B => exact Or.inl ⟨A, B, rfl, rfl⟩

theorem consistent_merged_mem (m : Mem) (ret a b : Nat) (A B : AVFilterFormats)
    (fmts : List Int) (h : Consistent m) (hab : a ≠ b) (hA : m.sets a = some A)
    (hB : m.sets b = some B) (hret : m.sets ret = none) :
    Consistent (merged_mem m ret a b A B fmts) := by
  have hra : ret ≠ a := by
    intro e; rw [e, hA] at hret; exact Option.noConfusion hret
  have hrb : ret ≠ b := by
    intro e; rw [e, hB] at hret; exact Option.noConfusion hret
  obtain ⟨hndA, hmemA⟩ := h.2 a A hA
  obtain ⟨hndB, hmemB⟩ := h.2 b B hB
  have hnoret : ∀ s, m.slots s ≠ some ret := by
    intro s e
    obtain ⟨G, hG⟩ := h.1 s ret e
    rw [hret] at hG
    exact Option.noConfusion hG
  have hin : ∀ s, s ∈ A.refs ++ B.refs ↔ (m.slots s = some a ∨ m.slots s = some b) := by
    intro s
    rw [List.mem_append, hmemA s, hmemB s]
  refine ⟨?_, ?_⟩
  · intro s q hq
    by_cases hs : s ∈ A.refs ++ B.refs
    · have hq2 : q = ret := by
        simp only [merged_mem, if_pos hs, Option.some.injEq] at hq
        exact hq.symm
      subst hq2
      exact ⟨{ formats := fmts, refs := A.refs ++ B.refs }, by simp [merged_mem, hra, hrb]⟩
    · simp only [merged_mem, if_neg hs] at hq
      obtain ⟨G, hG⟩ := h.1 s q hq
      have hqa : q ≠ a := fun e => hs ((hin s).mpr (Or.inl (e ▸ hq)))
      have hqb : q ≠ b := fun e => hs ((hin s).mpr (Or.inr (e ▸ hq)))
      have hqr : q ≠ ret := fun e => hnoret s (e ▸ hq)
      exact ⟨G, by simp [merged_mem, hqa, hqb, hqr, hG]⟩
  · intro q G hG
    by_cases hqb : q = b
    · simp [merged_mem, hqb] at hG
    · by_cases hqa : q = a
      · simp [merged_mem, hqa] at hG
      · by_cases hqr : q = ret
        · subst hqr
          simp only [merged_mem, if_neg hqb, if_neg hqa, if_true, Option.some.injEq] at hG
          subst hG
          refine ⟨?_, ?_⟩
          · apply List.Nodup.append hndA hndB
            intro s h1 h2
            have e1 := (hmemA s).mp h1
            have e2 := (hmemB s).mp h2
            rw [e1] at e2
            simp only [Option.some.injEq] at e2
            exact hab e2
          · intro s
            by_cases hs : s ∈ A.refs ++ B.refs
            · simp only [merged_mem, if_pos hs]
              exact ⟨fun _ => trivial, fun _ => hs⟩
            · simp only [merged_mem, if_neg hs, hs, false_iff]
              exact hnoret s
        · simp only [merged_mem, if_neg hqb, if_neg hqa, if_neg hqr] at hG
          obtain ⟨hnd3, hmem3⟩ := h.2 q G hG
          refine ⟨hnd3, ?_⟩
          intro s
          by_cases hs : s ∈ A.refs ++ B.refs
          · have h1 : s ∉ G.refs := by
              intro e
              have e1 := (hmem3 s).mp e
              rcases (hin s).mp hs with e2 | e2
              · rw [e1] at e2
                simp only [Option.some.injEq] at e2
                exact hqa e2
              · rw [e1] at e2
                simp only [Option.some.injEq] at e2
                exact hqb e2
            have hrq : ¬ ret = q := fun e => hqr e.symm
            simp only [merged_mem, if_pos hs, Option.some.injEq, hrq, iff_false]
            exact h1
          · simp only [merged_mem, if_neg hs]
            exact hmem3 s

theorem consistent_merge (m m' : Mem) (ret a b : Nat) (r : Option Nat) (h : Consistent m)
    (hret : m.sets ret = none)
    (hr : avfilter_merge_formats m ret a b = some (r, m')) : Consistent m' := by
  by_cases hab : a = b
  · subst hab
    simp only [avfilter_merge_formats, if_true] at hr
    simp only [Option.some.injEq, Prod.mk.injEq] at hr
    rw [← hr.2]
    exact h
  · rcases merge_some_live m m' ret a b r hab hr with ⟨A, B, hA, hB⟩ | hsame
    swap
    · rw [hsame]; exact h
    rw [avfilter_merge_formats_eq m ret a b A B hab hA hB hret] at hr
    by_cases hfit : (merge_writes B.formats A.formats).length ≤
        min A.formats.length B.formats.length
    · rw [if_pos hfit] at hr
      by_cases hnil : merge_writes B.formats A.formats = []
      · rw [if_pos hnil] at hr
        simp only [Option.some.injEq, Prod.mk.injEq] at hr
        rw [← hr.2]
        exact h
      · rw [if_neg hnil] at hr
        simp only [Option.some.injEq, Prod.mk.injEq] at hr
        rw [← hr.2]
        exact consistent_merged_mem m ret a b A B _ h hab hA hB hret
    · rw [if_neg hfit] at hr
      exact Option.noConfusion hr

theorem consistent_exec (m m' : Mem) (op : Op) (h : Consistent m)
    (hok : op.allowedEmptyTarget m = true) (hr : op.exec m = some m') : Consistent m' := by
  cases op with
  | ref f slot =>
    simp only [Op.allowedEmptyTarget, Op.allowed, Option.isNone_iff_eq_none] at hok
    exact consistent_ref m m' f slot h hok hr
  | unref slot => exact consistent_unref m m' slot h hr
  | changeref oldref newref =>
    simp only [Op.allowedEmptyTarget, Bool.and_eq_true, Option.isNone_iff_eq_none] at hok
    exact consistent_changeref m m' oldref newref h hok.2 hr
  | merge ret a b =>
    simp only [Op.allowedEmptyTarget, Op.allowed, Option.isNone_iff_eq_none] at hok
    simp only [Op.exec] at hr
    cases hm : avfilter_merge_formats m ret a b with
    | none => rw [hm] at hr; exact Option.noConfusion hr
    | some res =>
      rw [hm] at hr
      simp only [Option.map_some', Option.some.injEq] at hr
      subst hr
      exact consistent_merge m res.2 ret a b res.1 h hok hm

theorem consistent_runOps (ops : List Op) (m m' : Mem) (h : Consistent m)
    (hr : runOps Op.allowedEmptyTarget m ops = some m') : Consistent m' := by
  induction ops generalizing m with
  | nil =>
    simp only [runOps, Option.some.injEq] at hr
    rw [← hr]
    exact h
  | cons op ops ih =>
    unfold runOps at hr
    by_cases hok : op.allowedEmptyTarget m = true
    · rw [if_pos hok] at hr
      cases he : op.exec m with
      | none => rw [he] at hr; exact Option.noConfusion hr
      | some m1 =>
        rw [he] at hr
        exact ih m1 (consistent_exec m m1 op h hok he) hr
    · rw [if_neg hok] at hr
      exact Option.noConfusion hr

theorem fresh_two_lists (x y : List Int) :
    Fresh (Mem.ofLists [some ⟨x, []⟩, some ⟨y, []⟩] []) := by
  refine ⟨?_, ?_⟩
  · intro s
    simp [Mem.ofLists]
  · intro p F hF
    match p with
    | 0 =>
      simp [Mem.ofLists] at hF
      rw [← hF]
    | 1 =>
      simp [Mem.ofLists] at hF
      rw [← hF]
    | n + 2 => simp [Mem.ofLists] at hF

/-- C7, as stated, fails: from two fresh lists, attach the list 0 to the slot
0 and the list 1 to the slot 1, then transfer from the slot 0 to the slot 1,
which holds a reference.  The list 1 then has the reference count 1 and the
registry `[1]` although no slot points at it (the slot 1 points at the list
0): both invariants are broken. -/
theorem changeref_to_used_slot_breaks_invariants :
    ∃ m, Fresh (Mem.ofLists [some ⟨[1], []⟩, some ⟨[2], []⟩] []) ∧
      runOps Op.allowed (Mem.ofLists [some ⟨[1], []⟩, some ⟨[2], []⟩] [])
        [Op.ref 0 0, Op.ref 1 1, Op.changeref 0 1] = some m ∧
      ¬ InvariantA m ∧ ¬ InvariantB m := by
  refine ⟨_, fresh_two_lists [1] [2], rfl, ?_, ?_⟩
  · intro h
    have h1 := h 1 ⟨[2], [1]⟩ rfl
    have hempty : {s | (upd (upd (upd (upd (Mem.ofLists [some ⟨[1], []⟩, some ⟨[2], []⟩]
        []).slots 0 (some 0)) 1 (some 1)) 1 (some 0)) 0 none) s = some 1} = (∅ : Set Nat) := by
      ext s
      simp only [Set.mem_setOf_eq, Set.mem_empty_iff_false, iff_false]
      by_cases h0 : s = 0
      · simp [upd, h0]
      · by_cases h2 : s = 1
        · simp [upd, h2]
        · simp [upd, h0, h2, Mem.ofLists]
    have h2 : Set.ncard {s | (upd (upd (upd (upd (Mem.ofLists [some ⟨[1], []⟩, some ⟨[2], []⟩]
        []).slots 0 (some 0)) 1 (some 1)) 1 (some 0)) 0 none) s = some 1} = 0 := by
      rw [hempty]; exact Set.ncard_empty Nat
    have h3 : (1 : Nat) = 0 := h1.trans h2
    exact absurd h3 (by decide)
  · intro h
    have h1 := (h 1 ⟨[2], [1]⟩ rfl).2 1 (by simp)
    exact absurd h1 (by decide)

/-- C7, amended: in every memory reached from freshly built lists (no owner,
every slot empty) by a sequence of attach (on a slot that holds no
reference), detach, transfer (from a slot that holds a list to a slot that
holds no reference) and merge calls, the reference count of each live list is
the number of slots that point at it, and every slot listed in the owner
registry of a live list points at that list, none being listed twice. -/
theorem invariants_preserved (m0 m : Mem) (ops : List Op) (hfresh : Fresh m0)
    (hrun : runOps Op.allowedEmptyTarget m0 ops = some m) :
    InvariantA m ∧ InvariantB m :=
  invariants_of_consistent m (consistent_runOps ops m0 m (consistent_of_fresh m0 hfresh) hrun)

/-- A run of the amended C7: two lists are attached, one ownership is
transferred to a third slot, the lists are merged and one owner of the result
is detached. -/
theorem invariants_preserved_witness :
    ∃ m, Fresh (Mem.ofLists [some ⟨[1, 2], []⟩, some ⟨[2, 3], []⟩] []) ∧
      runOps Op.allowedEmptyTarget (Mem.ofLists [some ⟨[1, 2], []⟩, some ⟨[2, 3], []⟩] [])
        [Op.ref 0 0, Op.ref 1 1, Op.changeref 0 2, Op.merge 2 0 1, Op.unref 1] = some m ∧
      m.sets 2 = some ⟨[2], [2]⟩ ∧ InvariantA m ∧ InvariantB m := by
  exact ⟨_, fresh_two_lists [1, 2] [2, 3], rfl, rfl,
    invariants_preserved (Mem.ofLists [some ⟨[1, 2], []⟩, some ⟨[2, 3], []⟩] []) _
      [Op.ref 0 0, Op.ref 1 1, Op.changeref 0 2, Op.merge 2 0 1, Op.unref 1]
      (fresh_two_lists [1, 2] [2, 3]) rfl⟩

/-! ## The constructors: the properties checked -/

open AVMediaType (AVMEDIA_TYPE_VIDEO AVMEDIA_TYPE_AUDIO)

theorem make_format_list_count_eq (codes tail : List Int) (k : Nat) (h : (-1 : Int) ∉ codes) :
    make_format_list_count (codes ++ -1 :: tail) k = some (k + codes.length) := by
  induction codes generalizing k with
  | nil => simp [make_format_list_count]
  | cons x xs ih =>
    have hx : ¬ x = -1 := fun e => h (by simp [e])
    have hxs : (-1 : Int) ∉ xs := fun e => h (List.mem_cons_of_mem x e)
    show make_format_list_count (x :: (xs ++ -1 :: tail)) k = _
    unfold make_format_list_count
    rw [if_neg hx, ih (k + 1) hxs, List.length_cons]
    congr 1
    omega

theorem make_format_list_copy_eq (fmts : List Int) (count : Nat) (buf : List Int)
    (h1 : count ≤ fmts.length) (h2 : count ≤ buf.length) :
    make_format_list_copy fmts count buf = fmts.take count ++ buf.drop count := by
  induction count generalizing buf with
  | zero => simp [make_format_list_copy]
  | succ c ih =>
    have hc1 : c < fmts.length := by omega
    have hc2 : c < buf.length := by omega
    unfold make_format_list_copy
    rw [ih _ (by omega) (by simp; omega), List.drop_set, if_neg (Nat.lt_irrefl c),
      List.drop_eq_getElem_cons hc2, Nat.sub_self, List.set_cons_zero, List.take_succ,
      List.getElem?_eq_getElem hc1, List.getD_eq_getElem _ _ hc1]
    simp only [Option.toList, List.append_assoc, List.cons_append, List.nil_append]

/-- C11, as stated, fails: the sequence of codes `[1, -1, 2]`, passed as the
array of its codes followed by the terminator, gives the candidates `[1]`:
both constructors stop at the first `-1`. -/
theorem make_format_list_stops_at_terminator :
    avfilter_make_format_list (some ([1, -1, 2] ++ [-1])) = some ⟨[1], []⟩ ∧
      avfilter_make_format64_list (some ([1, -1, 2] ++ [-1])) = some ⟨[1], []⟩ := by
  constructor
  · rfl
  · rfl

/-- C11, amended: for every finite sequence of codes that does not contain
`-1`, passed as the array of its codes followed by the terminator `-1`
(whatever is stored after it), `avfilter_make_format_list` and
`avfilter_make_format64_list` build a list whose candidates are the input
sequence, same length, same order, duplicates kept, with a reference count
of zero; the two constructors build equal lists. -/
theorem make_format_list_copies (codes tail : List Int) (h : (-1 : Int) ∉ codes) :
    ∃ F G, avfilter_make_format_list (some (codes ++ -1 :: tail)) = some F ∧
      avfilter_make_format64_list (some (codes ++ -1 :: tail)) = some G ∧
      F.formats = codes ∧ F.format_count = codes.length ∧ F.refcount = 0 ∧
      G.formats = codes ∧ G.format_count = codes.length ∧ G.refcount = 0 ∧
      F.formats = G.formats := by
  have hcount := make_format_list_count_eq codes tail 0 h
  rw [Nat.zero_add] at hcount
  refine ⟨⟨codes, []⟩, ⟨codes, []⟩, ?_, ?_, rfl, rfl, rfl, rfl, rfl, rfl, rfl⟩
  · simp only [avfilter_make_format_list, hcount, Option.getD_some]
    rw [make_format_list_copy_eq _ _ _ (by simp) (by simp)]
    simp
  · simp only [avfilter_make_format64_list, hcount, Option.getD_some]
    simp

/-- A run of the amended C11: the codes `[3, 3, 0, 7]`. -/
theorem make_format_list_copies_witness :
    ∃ F G, avfilter_make_format_list (some ([3, 3, 0, 7] ++ -1 :: [9])) = some F ∧
      avfilter_make_format64_list (some ([3, 3, 0, 7] ++ -1 :: [9])) = some G ∧
      F.formats = [3, 3, 0, 7] ∧ F.format_count = 4 ∧ F.refcount = 0 ∧
      G.formats = [3, 3, 0, 7] ∧ G.format_count = 4 ∧ G.refcount = 0 ∧
      F.formats = G.formats :=
  make_format_list_copies [3, 3, 0, 7] [9] (by decide)

/-- C12: `avfilter_add_format` returns 0 when the allocations it makes
succeed, and then the list holds the old candidates (none if the list was
absent) followed by the new code, one more than before, with the owners and
the reference count unchanged; it returns the allocation-failure error
exactly when an allocation it makes fails, and then the candidates present
before the call are unchanged. -/
theorem add_format_appends (mallocz_ok realloc_ok : Bool) (s : Option AVFilterFormats)
    (c : Int) :
    ((s = none → mallocz_ok = true) → realloc_ok = true →
        ∃ F, avfilter_add_format mallocz_ok realloc_ok s c = (0, some F) ∧
          F.formats = ((s.map AVFilterFormats.formats).getD []) ++ [c] ∧
          F.format_count = ((s.map AVFilterFormats.format_count).getD 0) + 1 ∧
          F.refs = (s.map AVFilterFormats.refs).getD [] ∧
          F.refcount = (s.map AVFilterFormats.refcount).getD 0) ∧
      ((avfilter_add_format mallocz_ok realloc_ok s c).1 = AVERROR_ENOMEM ↔
        (s = none ∧ mallocz_ok = false) ∨ realloc_ok = false) ∧
      ((avfilter_add_format mallocz_ok realloc_ok s c).1 = 0 ∨
        (avfilter_add_format mallocz_ok realloc_ok s c).1 = AVERROR_ENOMEM) ∧
      ((avfilter_add_format mallocz_ok realloc_ok s c).1 = AVERROR_ENOMEM →
        (((avfilter_add_format mallocz_ok realloc_ok s c).2.map AVFilterFormats.formats).getD [] =
            (s.map AVFilterFormats.formats).getD [] ∧
          ∀ F, s = some F → (avfilter_add_format mallocz_ok realloc_ok s c).2 = some F)) := by
  cases s with
  | none =>
    cases mallocz_ok <;> cases realloc_ok <;>
      simp [avfilter_add_format, AVERROR_ENOMEM, AVFilterFormats.format_count,
        AVFilterFormats.refcount]
  | some F =>
    cases mallocz_ok <;> cases realloc_ok <;>
      simp [avfilter_add_format, AVERROR_ENOMEM, AVFilterFormats.format_count,
        AVFilterFormats.refcount]

/-- A run of C12: the code 5 is added to the list `[1, 2]` owned by the
slot 0. -/
theorem add_format_appends_witness :
    ∃ F, avfilter_add_format true true (some ⟨[1, 2], [0]⟩) 5 = (0, some F) ∧
      F.formats = [1, 2] ++ [5] ∧ F.format_count = 2 + 1 ∧ F.refs = [0] ∧ F.refcount = 1 :=
  (add_format_appends true true (some ⟨[1, 2], [0]⟩) 5).1 (fun _ => rfl) rfl

theorem all_formats_loop_eq (type : AVMediaType) (hwaccel : Nat → Bool) (n fmt : Nat)
    (ret : Option AVFilterFormats) :
    all_formats_loop type hwaccel n fmt ret =
      if ((List.range' fmt n).filter (fun c =>
          decide (type ≠ AVMEDIA_TYPE_VIDEO ∨ hwaccel c = false))) = [] then ret
      else some
        { formats := (ret.map AVFilterFormats.formats).getD [] ++
            ((List.range' fmt n).filter (fun c =>
              decide (type ≠ AVMEDIA_TYPE_VIDEO ∨ hwaccel c = false))).map
              (fun c : Nat => (c : Int)),
          refs := (ret.map AVFilterFormats.refs).getD [] } := by
  induction n generalizing fmt ret with
  | zero => simp [all_formats_loop]
  | succ n ih =>
    unfold all_formats_loop
    by_cases hk : type ≠ AVMEDIA_TYPE_VIDEO ∨ hwaccel fmt = false
    · have hk2 : type ≠ AVMEDIA_TYPE_VIDEO ∨
          (type = AVMEDIA_TYPE_VIDEO ∧ hwaccel fmt = false) := by
        rcases hk with h | h
        · exact Or.inl h
        · by_cases ht : type = AVMEDIA_TYPE_VIDEO
          · exact Or.inr ⟨ht, h⟩
          · exact Or.inl ht
      rw [if_pos hk2, ih, List.range'_succ, List.filter_cons_of_pos (by simpa using hk)]
      cases ret with
      | none =>
        by_cases hnil : (List.range' (fmt + 1) n).filter (fun c =>
            decide (type ≠ AVMEDIA_TYPE_VIDEO ∨ hwaccel c = false)) = []
        · simp [hnil, avfilter_add_format]
        · simp [hnil, avfilter_add_format]
      | some F =>
        by_cases hnil : (List.range' (fmt + 1) n).filter (fun c =>
            decide (type ≠ AVMEDIA_TYPE_VIDEO ∨ hwaccel c = false)) = []
        · simp [hnil, avfilter_add_format]
        · simp [hnil, avfilter_add_format]
    · have hk2 : ¬ (type ≠ AVMEDIA_TYPE_VIDEO ∨
          (type = AVMEDIA_TYPE_VIDEO ∧ hwaccel fmt = false)) := by
        intro h
        rcases h with h | h
        · exact hk (Or.inl h)
        · exact hk (Or.inr h.2)
      rw [if_neg hk2, ih, List.range'_succ, List.filter_cons_of_neg (by simpa using hk)]

/-- C13, as stated, fails: with a single pixel format whose descriptor carries
the hardware-accelerated flag, `avfilter_all_formats` returns `NULL` for
video, not a list without candidates. -/
theorem all_formats_null_when_all_hwaccel :
    avfilter_all_formats 1 5 (fun _ => true) AVMEDIA_TYPE_VIDEO = none := by
  rfl

/-- C13, amended: for video, when at least one of the codes
`0 .. PIX_FMT_NB - 1` has a descriptor without the hardware-accelerated flag,
`avfilter_all_formats` returns a list whose candidates are, in ascending
order and without repetition, exactly those codes; for audio, when
`AV_SAMPLE_FMT_NB` is positive, it returns the list of the codes
`0 .. AV_SAMPLE_FMT_NB - 1` in ascending order; when no code is to be listed
it returns `NULL`. -/
theorem all_formats_lists_codes (PIX_FMT_NB AV_SAMPLE_FMT_NB : Nat) (hwaccel : Nat → Bool) :
    ((∃ c, c < PIX_FMT_NB ∧ hwaccel c = false) →
        ∃ F, avfilter_all_formats PIX_FMT_NB AV_SAMPLE_FMT_NB hwaccel
            AVMEDIA_TYPE_VIDEO = some F ∧
          F.formats = ((List.range PIX_FMT_NB).filter (fun c => !hwaccel c)).map
            (fun c : Nat => (c : Int)) ∧
          F.formats.Sorted (· < ·) ∧
          (∀ x : Int, x ∈ F.formats ↔ ∃ c : Nat, c < PIX_FMT_NB ∧ hwaccel c = false ∧ x = (c : Int)) ∧
          F.refs = []) ∧
      ((¬ ∃ c, c < PIX_FMT_NB ∧ hwaccel c = false) →
        avfilter_all_formats PIX_FMT_NB AV_SAMPLE_FMT_NB hwaccel
          AVMEDIA_TYPE_VIDEO = none) ∧
      (0 < AV_SAMPLE_FMT_NB →
        ∃ F, avfilter_all_formats PIX_FMT_NB AV_SAMPLE_FMT_NB hwaccel
            AVMEDIA_TYPE_AUDIO = some F ∧
          F.formats = (List.range AV_SAMPLE_FMT_NB).map (fun c : Nat => (c : Int)) ∧
          F.formats.Sorted (· < ·) ∧ F.refs = []) ∧
      (AV_SAMPLE_FMT_NB = 0 →
        avfilter_all_formats PIX_FMT_NB AV_SAMPLE_FMT_NB hwaccel
          AVMEDIA_TYPE_AUDIO = none) := by
  have hsorted : ∀ (l : List Nat), l.Sorted (· < ·) →
      (l.map (fun c : Nat => (c : Int))).Sorted (· < ·) := by
    intro l hl
    exact List.pairwise_map.mpr (List.Pairwise.imp (fun hab => by exact_mod_cast hab) hl)
  have hvideo : ((List.range' 0 PIX_FMT_NB).filter (fun c =>
      decide (AVMEDIA_TYPE_VIDEO ≠ AVMEDIA_TYPE_VIDEO ∨
        hwaccel c = false))) = (List.range PIX_FMT_NB).filter (fun c => !hwaccel c) := by
    rw [← List.range_eq_range']
    apply List.filter_congr
    intro c _
    cases hwaccel c <;> simp
  have haudio : ((List.range' 0 AV_SAMPLE_FMT_NB).filter (fun c =>
      decide ( AVMEDIA_TYPE_AUDIO ≠ AVMEDIA_TYPE_VIDEO ∨
        hwaccel c = false))) = List.range AV_SAMPLE_FMT_NB := by
    rw [← List.range_eq_range']
    apply List.filter_eq_self.mpr
    intro c _
    simp
  refine ⟨?_, ?_, ?_, ?_⟩
  · rintro ⟨c, hc, hf⟩
    have hne : ¬ (List.range PIX_FMT_NB).filter (fun c => !hwaccel c) = [] := by
      intro e
      have hmem : c ∈ (List.range PIX_FMT_NB).filter (fun c => !hwaccel c) := by
        simp [List.mem_filter, hc, hf]
      rw [e] at hmem
      exact List.not_mem_nil c hmem
    refine ⟨⟨((List.range PIX_FMT_NB).filter (fun c => !hwaccel c)).map (fun c : Nat => (c : Int)),
      []⟩, ?_, rfl, ?_, ?_, rfl⟩
    · simp only [avfilter_all_formats, all_formats_loop_eq, hvideo, if_neg hne]
      simp
    · exact hsorted _ (List.Sorted.filter _ (List.sorted_lt_range PIX_FMT_NB))
    · intro x
      simp only [List.mem_map, List.mem_filter, List.mem_range, Bool.not_eq_true']
      constructor
      · rintro ⟨k, ⟨h1, h2⟩, h3⟩
        exact ⟨k, h1, h2, h3.symm⟩
      · rintro ⟨k, h1, h2, h3⟩
        exact ⟨k, ⟨h1, h2⟩, h3.symm⟩
  · intro hno
    have hnil : (List.range PIX_FMT_NB).filter (fun c => !hwaccel c) = [] := by
      apply List.filter_eq_nil_iff.mpr
      intro c hc hf
      apply hno
      exact ⟨c, List.mem_range.mp hc, by simpa using hf⟩
    simp only [avfilter_all_formats, all_formats_loop_eq, hvideo, if_pos hnil]
  · intro hpos
    have hne : ¬ List.range AV_SAMPLE_FMT_NB = [] := by
      intro e
      have := congrArg List.length e
      simp at this
      omega
    refine ⟨⟨(List.range AV_SAMPLE_FMT_NB).map (fun c : Nat => (c : Int)), []⟩, ?_, rfl, ?_, rfl⟩
    · simp only [avfilter_all_formats, all_formats_loop_eq, haudio, if_neg hne]
      simp
    · exact hsorted _ (List.sorted_lt_range AV_SAMPLE_FMT_NB)
  · intro h0
    subst h0
    rfl

/-- A run of the amended C13: with 4 pixel formats of which the code 2 is
hardware-accelerated, video gives `[0, 1, 3]`; with 3 sample formats, audio
gives `[0, 1, 2]`. -/
theorem all_formats_lists_codes_witness :
    (∃ F, avfilter_all_formats 4 3 (fun c => decide (c = 2))
          AVMEDIA_TYPE_VIDEO = some F ∧
        F.formats = ((List.range 4).filter (fun c => !decide (c = 2))).map
          (fun c : Nat => (c : Int)) ∧
        F.formats.Sorted (· < ·) ∧
        (∀ x : Int, x ∈ F.formats ↔ ∃ c : Nat, c < 4 ∧ decide (c = 2) = false ∧ x = (c : Int)) ∧
        F.refs = []) ∧
      (∃ F, avfilter_all_formats 4 3 (fun c => decide (c = 2))
          AVMEDIA_TYPE_AUDIO = some F ∧
        F.formats = (List.range 3).map (fun c : Nat => (c : Int)) ∧
        F.formats.Sorted (· < ·) ∧ F.refs = []) ∧
      avfilter_all_formats 4 3 (fun c => decide (c = 2)) AVMEDIA_TYPE_VIDEO =
        some ⟨[0, 1, 3], []⟩ ∧
      avfilter_all_formats 4 3 (fun c => decide (c = 2)) AVMEDIA_TYPE_AUDIO =
        some ⟨[0, 1, 2], []⟩ :=
  ⟨(all_formats_lists_codes 4 3 (fun c => decide (c = 2))).1 ⟨0, by decide, by decide⟩,
    (all_formats_lists_codes 4 3 (fun c => decide (c = 2))).2.2.1 (by decide), rfl, rfl⟩

/-- C20: on an array that holds the terminator `-1`, `ff_fmt_is_in` returns
a value, which is 1 if and only if `fmt` equals an entry before the first
`-1` and 0 otherwise; it is 0 for `fmt = -1` and for an array that starts
with the terminator. -/
theorem fmt_is_in_spec (fmt : Int) (fmts : List Int) (h : (-1 : Int) ∈ fmts) :
    ∃ r, ff_fmt_is_in fmt fmts = some r ∧ (r = 0 ∨ r = 1) ∧
      (r = 1 ↔ fmt ∈ fmts.takeWhile (fun x => decide (x ≠ -1))) ∧
      (r = 0 ↔ fmt ∉ fmts.takeWhile (fun x => decide (x ≠ -1))) ∧
      (fmt = -1 → r = 0) ∧ (fmts.head? = some (-1) → r = 0) := by
  induction fmts with
  | nil => exact absurd h (List.not_mem_nil _)
  | cons p ps ih =>
    by_cases hp : p = -1
    · subst hp
      refine ⟨0, by simp [ff_fmt_is_in], Or.inl rfl, ?_, ?_, fun _ => rfl, fun _ => rfl⟩
      · simp
      · simp
    · by_cases hf : fmt = p
      · subst hf
        refine ⟨1, by simp [ff_fmt_is_in, hp], Or.inr rfl, ?_, ?_, ?_, ?_⟩
        · simp [List.takeWhile_cons, hp]
        · simp [List.takeWhile_cons, hp]
        · intro e; exact absurd e hp
        · intro e
          simp at e
          exact absurd e hp
      · have hmem : (-1 : Int) ∈ ps := by
          rcases List.mem_cons.mp h with e | e
          · exact absurd e.symm hp
          · exact e
        obtain ⟨r, h1, h2, h3, h4, h5, -⟩ := ih hmem
        refine ⟨r, by simp [ff_fmt_is_in, hp, hf, h1], h2, ?_, ?_, h5, ?_⟩
        · rw [h3]
          simp [List.takeWhile_cons, hp, hf]
        · rw [h4]
          simp [List.takeWhile_cons, hp, hf]
        · intro e
          simp at e
          exact absurd e hp

/-- A run of C20: the code 7 in the array `[3, 7, -1, 9]`. -/
theorem fmt_is_in_spec_witness :
    ∃ r, ff_fmt_is_in 7 [3, 7, -1, 9] = some r ∧ (r = 0 ∨ r = 1) ∧
      (r = 1 ↔ (7 : Int) ∈ ([3, 7, -1, 9] : List Int).takeWhile (fun x => decide (x ≠ -1))) ∧
      (r = 0 ↔ (7 : Int) ∉ ([3, 7, -1, 9] : List Int).takeWhile (fun x => decide (x ≠ -1))) ∧
      ((7 : Int) = -1 → r = 0) ∧ (([3, 7, -1, 9] : List Int).head? = some (-1) → r = 0) :=
  fmt_is_in_spec 7 [3, 7, -1, 9] (by decide)

/-! ## The capacity of the merge result and repeated detaches -/

/-- C18 fails on the code: for `A = [1]` and `B = [1, 1]` there are two index
pairs with equal codes while the result array has `min(1, 2) = 1` entry, so
that the second write is out of bounds and the merge has no defined result;
the same holds for `A = [1, 1]` and `B = [1]`. -/
theorem merge_writes_past_capacity :
    (merge_writes [1, 1] [1]).length = 2 ∧
      min (AVFilterFormats.format_count ⟨[1], []⟩) (AVFilterFormats.format_count ⟨[1, 1], []⟩) = 1 ∧
      merge_outer 1 [1, 1] [1] [] = none ∧
      (avfilter_merge_formats
        (Mem.ofLists [some ⟨[1], []⟩, some ⟨[1, 1], []⟩] []) 2 0 1).isNone = true ∧
      (avfilter_merge_formats
        (Mem.ofLists [some ⟨[1, 1], []⟩, some ⟨[1], []⟩] []) 2 0 1).isNone = true := by
  refine ⟨rfl, rfl, rfl, rfl, rfl⟩

theorem unref_clears_slot (m m1 : Mem) (ref : Nat)
    (h : avfilter_formats_unref m ref = some m1) : m1.slots ref = none := by
  unfold avfilter_formats_unref at h
  cases hs : m.slots ref with
  | none =>
    simp only [hs, Option.some.injEq] at h
    rw [← h]; exact hs
  | some p =>
    simp only [hs] at h
    cases hi : find_ref_index m ref with
    | none => simp [hi] at h
    | some idx =>
      cases hF : m.sets p with
      | none => simp [hi, hF] at h
      | some F =>
        simp only [hi, hF] at h
        by_cases h0 : F.refcount = 0
        · simp only [if_pos h0, Option.some.injEq] at h
          rw [← h]; simp [upd]
        · by_cases h1 : F.refcount - 1 = 0
          · simp only [if_neg h0, if_pos h1, Option.some.injEq] at h
            rw [← h]; simp [upd]
          · simp only [if_neg h0, if_neg h1, Option.some.injEq] at h
            rw [← h]; simp [upd]

/-- C19: `avfilter_formats_unref` on a slot that holds no reference leaves
the memory as it is, no list and no slot changes; and a detach of a slot
followed by a second detach of the same slot gives what the first detach
alone gives.  The detach has a result, which leaves the slot `NULL`, for
every slot that is empty or points at a live list, whatever its reference
count and whether the slot is listed or not; it has none exactly when the
slot holds a pointer to no live list, where the C code reads freed memory or
a registry without entries. -/
theorem unref_idempotent (m : Mem) (ref : Nat) :
    (m.slots ref = none → avfilter_formats_unref m ref = some m) ∧
      (avfilter_formats_unref m ref).bind (fun m1 => avfilter_formats_unref m1 ref) =
        avfilter_formats_unref m ref ∧
      (∀ m1, avfilter_formats_unref m ref = some m1 →
        avfilter_formats_unref m1 ref = some m1) ∧
      (∀ p F, m.slots ref = some p → m.sets p = some F →
        ∃ m1, avfilter_formats_unref m ref = some m1 ∧ m1.slots ref = none ∧
          avfilter_formats_unref m1 ref = some m1) ∧
      (∀ p, m.slots ref = some p → m.sets p = none → avfilter_formats_unref m ref = none) := by
  have hnone : ∀ k : Mem, k.slots ref = none → avfilter_formats_unref k ref = some k := by
    intro k hk
    simp [avfilter_formats_unref, hk]
  have htwice : ∀ m1, avfilter_formats_unref m ref = some m1 →
      avfilter_formats_unref m1 ref = some m1 :=
    fun m1 h1 => hnone m1 (unref_clears_slot m m1 ref h1)
  refine ⟨hnone m, ?_, htwice, ?_, ?_⟩
  · cases h : avfilter_formats_unref m ref with
    | none => rfl
    | some m1 => exact htwice m1 h
  · intro p F hs hF
    have hi : find_ref_index m ref = some (find_ref_index_loop ref F.refs 0) := by
      simp [find_ref_index, hs, hF]
    have hex : ∃ m1, avfilter_formats_unref m ref = some m1 := by
      unfold avfilter_formats_unref
      simp only [hs, hi, hF]
      by_cases h0 : F.refcount = 0
      · rw [if_pos h0]; exact ⟨_, rfl⟩
      · rw [if_neg h0]
        by_cases h1 : F.refcount - 1 = 0
        · rw [if_pos h1]; exact ⟨_, rfl⟩
        · rw [if_neg h1]; exact ⟨_, rfl⟩
    obtain ⟨m1, h1⟩ := hex
    exact ⟨m1, h1, unref_clears_slot m m1 ref h1, htwice m1 h1⟩
  · intro p hs hF
    simp [avfilter_formats_unref, find_ref_index, hs, hF]

/-- Runs of C19.  The slot 0 points at the list `[7]`, whose reference count
is zero: the first detach wraps the count, frees nothing and clears the slot,
and the second detach changes nothing.  The slot 0 owns the list `[7]`
together with the slot 1: the first detach removes it from the registry, the
second changes nothing. -/
theorem unref_idempotent_witness :
    (∃ m1, avfilter_formats_unref (Mem.ofLists [some ⟨[7], []⟩] [some 0]) 0 = some m1 ∧
        m1.slots 0 = none ∧ avfilter_formats_unref m1 0 = some m1) ∧
      (∃ m1, avfilter_formats_unref (Mem.ofLists [some ⟨[7], [0, 1]⟩] [some 0, some 0]) 0 =
          some m1 ∧
        m1.slots 0 = none ∧ avfilter_formats_unref m1 0 = some m1) ∧
      (avfilter_formats_unref (Mem.ofLists [some ⟨[7], []⟩] [some 0]) 0).map
          (fun m1 => (m1.sets 0, m1.wrapped 0, m1.slots 0)) = some (none, some [7], none) ∧
      (avfilter_formats_unref (Mem.ofLists [some ⟨[7], [0, 1]⟩] [some 0, some 0]) 0).map
          (fun m1 => (m1.sets 0, m1.wrapped 0, m1.slots 0)) =
        some (some ⟨[7], [1]⟩, none, none) :=
  ⟨(unref_idempotent (Mem.ofLists [some ⟨[7], []⟩] [some 0]) 0).2.2.2.1 0 ⟨[7], []⟩ rfl rfl,
    (unref_idempotent (Mem.ofLists [some ⟨[7], [0, 1]⟩] [some 0, some 0]) 0).2.2.2.1 0
      ⟨[7], [0, 1]⟩ rfl rfl,
    rfl, rfl⟩

/-! ## The scalar parsers: the properties checked -/

/-- C14 fails on the code: the empty token, which is neither an integer
literal nor one of the two words, is accepted with the value 0, because
`strtol` converts nothing and leaves no text behind; and with a `long` of 64
bits the token `4294967296`, an integer that is neither 0 nor 1, is accepted
with the value 0 because the result of `strtol` is narrowed to `int`. -/
theorem parse_packing_accepts_empty (long_bits : Nat) :
    ff_parse_packing_format long_bits [] = (0, some 0) ∧
      ff_parse_packing_format 64 "4294967296".toList = (0, some 0) := by
  constructor
  · rfl
  · decide

/-- C15 fails on the code: with a `long` of 64 bits the token `4294967296`,
which is no sample-format name and denotes an integer too large for `int`,
is accepted as the sample format 0, the low 32 bits of the value; so is
`4294967297` as the format 1; and the empty token is accepted as the format
0. -/
theorem parse_sample_format_accepts_wrapped :
    ff_parse_sample_format 64 (fun _ => AV_SAMPLE_FMT_NONE) 5 "4294967296".toList =
        (0, some 0) ∧
      ff_parse_sample_format 64 (fun _ => AV_SAMPLE_FMT_NONE) 5 "4294967297".toList =
        (0, some 1) ∧
      ff_parse_sample_format 64 (fun _ => AV_SAMPLE_FMT_NONE) 5 [] = (0, some 0) := by
  refine ⟨?_, ?_, ?_⟩
  · decide
  · decide
  · decide

theorem tdiv_eq_floor (x : ℚ) (hx : 0 ≤ x) : x.num.tdiv x.den = ⌊x⌋ := by
  rw [Rat.floor_def]
  exact Int.tdiv_eq_ediv (Rat.num_nonneg.mpr hx) (Int.natCast_nonneg _)

theorem double_to_int_of_range (x : ℚ) (h1 : 1 ≤ x) (h2 : x < 2 ^ 31) :
    double_to_int x = some ⌊x⌋ ∧ double_to_unsigned x = some ⌊x⌋ := by
  have hx : 0 ≤ x := le_trans (by norm_num) h1
  have hfl1 : (1 : Int) ≤ ⌊x⌋ := Int.le_floor.mpr (by exact_mod_cast h1)
  have hfl2 : ⌊x⌋ < (2 : Int) ^ 31 := Int.floor_lt.mpr (by exact_mod_cast h2)
  constructor
  · unfold double_to_int
    rw [tdiv_eq_floor x hx, if_pos ⟨by omega, hfl2⟩]
  · unfold double_to_unsigned
    rw [tdiv_eq_floor x hx, if_pos ⟨by omega, by omega⟩]

theorem double_to_int_of_large (x : ℚ) (h2 : (2 : ℚ) ^ 31 ≤ x) : double_to_int x = none := by
  have hx : 0 ≤ x := le_trans (by norm_num) h2
  have hfl2 : (2 : Int) ^ 31 ≤ ⌊x⌋ := Int.le_floor.mpr (by exact_mod_cast h2)
  unfold double_to_int
  rw [tdiv_eq_floor x hx, if_neg (by omega)]

/-- C16, as stated, fails: for a token whose value is the integer `2^31`,
with no text left, the conversion `(int)srate` is out of the range of `int`
and the call has no defined result; it does not return that value as the
sample rate. -/
theorem parse_sample_rate_large_undefined :
    ff_parse_sample_rate (fun _ => (2147483648, [])) "2147483648".toList = none ∧
      ff_parse_sample_rate (fun _ => (2147483647, [])) "2147483647".toList =
        some (0, some 2147483647) := by
  constructor
  · decide
  · decide

/-- C16, amended: for a token that `av_strtod` reads as the value `v` with
the rest `tail`, `ff_parse_sample_rate` fails with the invalid-argument error
when text remains or `v < 1`; for `1 ≤ v < 2^31` with no text left it fails
when `v` is not an integer and otherwise returns 0 and stores that integer;
it succeeds in no other case; for `v ≥ 2^31` with no text left the
conversion to `int` is undefined. -/
theorem parse_sample_rate_spec (av_strtod : List Char → ℚ × List Char) (arg : List Char) :
    ((av_strtod arg).2 ≠ [] ∨ (av_strtod arg).1 < 1 →
        ff_parse_sample_rate av_strtod arg = some (AVERROR_EINVAL, none)) ∧
      ((av_strtod arg).2 = [] → 1 ≤ (av_strtod arg).1 → (av_strtod arg).1 < 2 ^ 31 →
        (¬ ∃ n : Int, (av_strtod arg).1 = n) →
        ff_parse_sample_rate av_strtod arg = some (AVERROR_EINVAL, none)) ∧
      (∀ n : Int, (av_strtod arg).2 = [] → (av_strtod arg).1 = n → 1 ≤ n → n < 2 ^ 31 →
        ff_parse_sample_rate av_strtod arg = some (0, some n)) ∧
      (∀ n : Int, ff_parse_sample_rate av_strtod arg = some (0, some n) →
        (av_strtod arg).2 = [] ∧ (av_strtod arg).1 = n ∧ 1 ≤ n ∧ n < 2 ^ 31) ∧
      ((av_strtod arg).2 = [] → (2 : ℚ) ^ 31 ≤ (av_strtod arg).1 →
        ff_parse_sample_rate av_strtod arg = none) := by
  refine ⟨?_, ?_, ?_, ?_, ?_⟩
  · intro h
    unfold ff_parse_sample_rate
    simp only [if_pos h]
  · intro ht h1 h2 hni
    have hfail : ¬ ((av_strtod arg).2 ≠ [] ∨ (av_strtod arg).1 < 1) := by
      rintro (h | h)
      · exact h ht
      · exact absurd h1 (not_le.mpr h)
    have hne : ((⌊(av_strtod arg).1⌋ : Int) : ℚ) ≠ (av_strtod arg).1 :=
      fun e => hni ⟨_, e.symm⟩
    unfold ff_parse_sample_rate
    simp only [if_neg hfail, (double_to_int_of_range _ h1 h2).1, if_pos hne]
  · intro n ht hv h1 h2
    have h1q : (1 : ℚ) ≤ (av_strtod arg).1 := by rw [hv]; exact_mod_cast h1
    have h2q : (av_strtod arg).1 < 2 ^ 31 := by rw [hv]; exact_mod_cast h2
    have hfail : ¬ ((av_strtod arg).2 ≠ [] ∨ (av_strtod arg).1 < 1) := by
      rintro (h | h)
      · exact h ht
      · exact absurd h1q (not_le.mpr h)
    have hfl : ⌊(av_strtod arg).1⌋ = n := by rw [hv]; exact Int.floor_intCast n
    have heq : ¬ ((n : Int) : ℚ) ≠ (av_strtod arg).1 := by
      rw [hv]; simp
    unfold ff_parse_sample_rate
    simp only [if_neg hfail, (double_to_int_of_range _ h1q h2q).1,
      (double_to_int_of_range _ h1q h2q).2, hfl, if_neg heq]
  · intro n h
    unfold ff_parse_sample_rate at h
    by_cases hfail : (av_strtod arg).2 ≠ [] ∨ (av_strtod arg).1 < 1
    · simp only [if_pos hfail, Option.some.injEq, Prod.mk.injEq] at h
      exact absurd h.1 (by decide)
    · have ht : (av_strtod arg).2 = [] := by
        by_contra e; exact hfail (Or.inl e)
      have h1 : (1 : ℚ) ≤ (av_strtod arg).1 := by
        by_contra e; exact hfail (Or.inr (not_le.mp e))
      simp only [if_neg hfail] at h
      by_cases h2 : (av_strtod arg).1 < 2 ^ 31
      · simp only [(double_to_int_of_range _ h1 h2).1, (double_to_int_of_range _ h1 h2).2] at h
        by_cases hne : ((⌊(av_strtod arg).1⌋ : Int) : ℚ) ≠ (av_strtod arg).1
        · simp only [if_pos hne, Option.some.injEq, Prod.mk.injEq] at h
          exact absurd h.1 (by decide)
        · simp only [if_neg hne, Option.some.injEq, Prod.mk.injEq, true_and] at h
          have hv : (av_strtod arg).1 = ((⌊(av_strtod arg).1⌋ : Int) : ℚ) :=
            (not_not.mp hne).symm
          rw [h] at hv
          have h1n : (1 : ℚ) ≤ (n : ℚ) := by rw [← hv]; exact h1
          have h2n : (n : ℚ) < 2 ^ 31 := by rw [← hv]; exact h2
          exact ⟨ht, hv, by exact_mod_cast h1n, by exact_mod_cast h2n⟩
      · rw [double_to_int_of_large _ (not_lt.mp h2)] at h
        exact Option.noConfusion h
  · intro ht h2
    have h1 : (1 : ℚ) ≤ (av_strtod arg).1 := le_trans (by norm_num) h2
    have hfail : ¬ ((av_strtod arg).2 ≠ [] ∨ (av_strtod arg).1 < 1) := by
      rintro (h | h)
      · exact h ht
      · exact absurd h1 (not_le.mpr h)
    unfold ff_parse_sample_rate
    simp only [if_neg hfail, double_to_int_of_large _ h2]

/-- The examples of C16: the value 48000 gives 48000, the value 48000.5 and
the value -1 fail. -/
theorem parse_sample_rate_spec_witness :
    ff_parse_sample_rate (fun _ => (48000, [])) "48000".toList = some (0, some 48000) ∧
      ff_parse_sample_rate (fun _ => (mkRat 96001 2, [])) "48000.5".toList =
        some (AVERROR_EINVAL, none) ∧
      ff_parse_sample_rate (fun _ => (-1, [])) "-1".toList = some (AVERROR_EINVAL, none) :=
  ⟨(parse_sample_rate_spec (fun _ => (48000, [])) "48000".toList).2.2.1 48000 rfl
      (by norm_num) (by norm_num) (by norm_num),
    by decide,
    (parse_sample_rate_spec (fun _ => (-1, [])) "-1".toList).1 (Or.inr (by norm_num))⟩

theorem strtol_convert_range (long_bits : Nat) (negative : Bool) (b : Nat)
    (nptr s3 : List Char) :
    -(2 : Int) ^ (long_bits - 1) ≤ (strtol_convert long_bits negative b nptr s3).1 ∧
      (strtol_convert long_bits negative b nptr s3).1 ≤ (2 : Int) ^ (long_bits - 1) - 1 := by
  have hpos : (1 : Int) ≤ (2 : Int) ^ (long_bits - 1) := one_le_pow₀ (by norm_num)
  cases s3 with
  | nil =>
    simp only [strtol_convert]
    constructor <;> omega
  | cons c cs =>
    simp only [strtol_convert]
    by_cases hd : is_digit_in b c = true
    · rw [if_pos hd]
      constructor
      · exact le_max_left _ _
      · exact max_le (by omega) (min_le_right _ _)
    · rw [if_neg hd]
      constructor <;> omega

theorem strtol_range (long_bits : Nat) (nptr : List Char) (base : Nat) :
    -(2 : Int) ^ (long_bits - 1) ≤ (strtol long_bits nptr base).1 ∧
      (strtol long_bits nptr base).1 ≤ (2 : Int) ^ (long_bits - 1) - 1 := by
  unfold strtol
  exact strtol_convert_range _ _ _ _ _

theorem to_int64_of_long (long_bits : Nat) (nptr : List Char) (base : Nat)
    (hlong : long_bits ≤ 64) :
    to_int64 (strtol long_bits nptr base).1 = (strtol long_bits nptr base).1 := by
  obtain ⟨h1, h2⟩ := strtol_range long_bits nptr base
  have hpow : (2 : Int) ^ (long_bits - 1) ≤ (2 : Int) ^ 63 :=
    pow_le_pow_right₀ (by norm_num) (by omega)
  unfold to_int64
  have h3 : ((strtol long_bits nptr base).1 + 2 ^ 63) % 2 ^ 64 =
      (strtol long_bits nptr base).1 + 2 ^ 63 := by
    apply Int.emod_eq_of_lt
    · omega
    · omega
  rw [h3]
  omega

/-- The branches of `ff_parse_channel_layout`: it never succeeds with the
layout 0; when `av_get_channel_layout` knows the token (its result is not 0)
the call succeeds with that layout; otherwise the call fails with the
invalid-argument error if `strtol` leaves text or returns 0, and succeeds
with the value `strtol` returns in every other case. -/
theorem parse_channel_layout_spec (long_bits : Nat) (av_get_channel_layout : List Char → Int)
    (arg : List Char) (hlong : long_bits ≤ 64) :
    (∀ v, ff_parse_channel_layout long_bits av_get_channel_layout arg = (0, some v) → v ≠ 0) ∧
      (av_get_channel_layout arg ≠ 0 →
        ff_parse_channel_layout long_bits av_get_channel_layout arg =
          (0, some (av_get_channel_layout arg))) ∧
      (av_get_channel_layout arg = 0 →
        ((strtol long_bits arg 10).2 ≠ [] ∨ (strtol long_bits arg 10).1 = 0) →
        ff_parse_channel_layout long_bits av_get_channel_layout arg = (AVERROR_EINVAL, none)) ∧
      (av_get_channel_layout arg = 0 → (strtol long_bits arg 10).2 = [] →
        (strtol long_bits arg 10).1 ≠ 0 →
        ff_parse_channel_layout long_bits av_get_channel_layout arg =
          (0, some (strtol long_bits arg 10).1)) := by
  have h64 := to_int64_of_long long_bits arg 10 hlong
  refine ⟨?_, ?_, ?_, ?_⟩
  · intro v h
    unfold ff_parse_channel_layout at h
    by_cases hname : av_get_channel_layout arg = 0
    · simp only [if_pos hname, h64] at h
      by_cases hfail : (strtol long_bits arg 10).2 ≠ [] ∨ (strtol long_bits arg 10).1 = 0
      · simp only [if_pos hfail, Prod.mk.injEq] at h
        exact absurd h.1 (by decide)
      · simp only [if_neg hfail, Prod.mk.injEq, Option.some.injEq, true_and] at h
        rw [← h]
        exact fun e => hfail (Or.inr e)
    · simp only [if_neg hname, Prod.mk.injEq, Option.some.injEq, true_and] at h
      rw [← h]
      exact hname
  · intro hname
    unfold ff_parse_channel_layout
    simp only [if_neg hname]
  · intro hname hfail
    unfold ff_parse_channel_layout
    simp only [if_pos hname, h64, if_pos hfail]
  · intro hname ht hv
    have hfail : ¬ ((strtol long_bits arg 10).2 ≠ [] ∨ (strtol long_bits arg 10).1 = 0) := by
      rintro (h | h)
      · exact h ht
      · exact hv h
    unfold ff_parse_channel_layout
    simp only [if_pos hname, h64, if_neg hfail]

/-- Runs of `ff_parse_channel_layout` with a `long` of 64 bits and a table of
names that knows `stereo` as the layout 3: `stereo` gives 3, `5` gives 5,
`0`, the empty token and `5x` fail. -/
theorem parse_channel_layout_spec_witness :
    (∀ v, ff_parse_channel_layout 64 (fun t => if t = "stereo".toList then 3 else 0)
        "5".toList = (0, some v) → v ≠ 0) ∧
      ff_parse_channel_layout 64 (fun t => if t = "stereo".toList then 3 else 0)
        "stereo".toList = (0, some 3) ∧
      ff_parse_channel_layout 64 (fun t => if t = "stereo".toList then 3 else 0)
        "5".toList = (0, some 5) ∧
      ff_parse_channel_layout 64 (fun t => if t = "stereo".toList then 3 else 0)
        "0".toList = (AVERROR_EINVAL, none) ∧
      ff_parse_channel_layout 64 (fun t => if t = "stereo".toList then 3 else 0)
        [] = (AVERROR_EINVAL, none) ∧
      ff_parse_channel_layout 64 (fun t => if t = "stereo".toList then 3 else 0)
        "5x".toList = (AVERROR_EINVAL, none) :=
  ⟨(parse_channel_layout_spec 64 (fun t => if t = "stereo".toList then 3 else 0)
      "5".toList (by decide)).1,
    (parse_channel_layout_spec 64 (fun t => if t = "stereo".toList then 3 else 0)
      "stereo".toList (by decide)).2.1 (by decide),
    (parse_channel_layout_spec 64 (fun t => if t = "stereo".toList then 3 else 0)
      "5".toList (by decide)).2.2.2 (by decide) (by decide) (by decide),
    (parse_channel_layout_spec 64 (fun t => if t = "stereo".toList then 3 else 0)
      "0".toList (by decide)).2.2.1 (by decide) (Or.inr (by decide)),
    (parse_channel_layout_spec 64 (fun t => if t = "stereo".toList then 3 else 0)
      [] (by decide)).2.2.1 (by decide) (Or.inr (by decide)),
    (parse_channel_layout_spec 64 (fun t => if t = "stereo".toList then 3 else 0)
      "5x".toList (by decide)).2.2.1 (by decide) (Or.inl (by decide))⟩

/-- C17 fails on the code: a token that is no layout name and denotes a
decimal integer outside the range of `long` is accepted with the bound of
that range, not with the integer it denotes, because the range error of
`strtol` is not checked.  With a `long` of 64 bits `9223372036854775808` is
accepted as `9223372036854775807`; with a `long` of 32 bits `4294967296` and
`1099511627776` are both accepted as `2147483647`. -/
theorem parse_channel_layout_clamps :
    ff_parse_channel_layout 64 (fun _ => 0) "9223372036854775808".toList =
        (0, some 9223372036854775807) ∧
      ff_parse_channel_layout 32 (fun _ => 0) "4294967296".toList = (0, some 2147483647) ∧
      ff_parse_channel_layout 32 (fun _ => 0) "1099511627776".toList =
        (0, some 2147483647) := by
  refine ⟨?_, ?_, ?_⟩
  · decide
  · decide
  · decide

end Formats
